import Mathlib

/-!
Verification development for the `plza-trainer-info` save-container codec.

Shallow embedding of the Python sources under `src/plaza/crypto/`:
`scxorshift.py`, `sctypecode.py`, `scblock.py`, `swishcrypto.py`,
`fnvhash.py`, `hashdb.py`.  Bytes are modelled as `Nat` (with explicit
range side conditions where the Python `bytes`/`bytearray` types enforce
values below 256), 32-bit arithmetic is `Nat` with explicit `% 2^32`,
and fallible Python code (raising `ValueError` / `struct.error` /
`KeyError`) is modelled with `Except` / `Option`.
-/

deriving instance DecidableEq for Except

namespace Plaza

/-- Binary digit sum with an explicit iteration bound (first argument);
the bound only forces structural recursion and is never exhausted when
it is at least the number itself, since the argument halves each step. -/
def popCountAux : Nat → Nat → Nat
  | 0, _ => 0
  | fuel + 1, n => if n = 0 then 0 else n % 2 + popCountAux fuel (n / 2)

/-- Population count of a natural number; models the Python popcount
expression in `scxorshift.py` (count of set bits of the seed). -/
def popCount (n : Nat) : Nat :=
  popCountAux n n

/-- Models `SCXorShift32._xorshift_advance`: one xorshift step on a 32-bit state,
all intermediates masked to 32 bits exactly as in the source. -/
def xorshiftAdvance (state : Nat) : Nat :=
  let s1 := (state ^^^ (state <<< 2)) % 4294967296
  let s2 := s1 ^^^ (s1 >>> 15)
  (s2 ^^^ (s2 <<< 13)) % 4294967296

/-- Models `SCXorShift32._get_initial_state`: advance the raw seed once per set
bit of the seed. -/
def getInitialState (seed : Nat) : Nat :=
  xorshiftAdvance^[popCount seed] seed

/-- Models `SCXorShift32`: 32-bit state plus a byte-position counter 0..3. -/
structure SCXorShift32 where
  counter : Nat
  state : Nat
deriving DecidableEq, Repr

namespace SCXorShift32

/-- Models `SCXorShift32.__init__`. -/
def ofSeed (seed : Nat) : SCXorShift32 :=
  ⟨0, getInitialState seed⟩

/-- Models `SCXorShift32.next`: byte `counter` of the state (little endian), then
advance the counter, rolling the state once every four bytes. -/
def next (xk : SCXorShift32) : Nat × SCXorShift32 :=
  let c := xk.counter
  let result := (xk.state >>> (c <<< 3)) &&& 255
  if c = 3 then (result, ⟨0, xorshiftAdvance xk.state⟩)
  else (result, ⟨c + 1, xk.state⟩)

/-- Models `SCXorShift32.next32`: four successive bytes combined little endian. -/
def next32 (xk : SCXorShift32) : Nat × SCXorShift32 :=
  let (b0, xk) := xk.next
  let (b1, xk) := xk.next
  let (b2, xk) := xk.next
  let (b3, xk) := xk.next
  (b0 ||| (b1 <<< 8) ||| (b2 <<< 16) ||| (b3 <<< 24), xk)

end SCXorShift32

/-- XOR a byte list with successive keystream bytes, threading the
generator state; models the `for i in range(len(arr)): arr[i] ^= xk.next()`
loops of `scblock.py` (both the decrypt and the encrypt direction use the
identical loop shape). -/
def cryptBytes : SCXorShift32 → List Nat → List Nat × SCXorShift32
  | xk, [] => ([], xk)
  | xk, b :: bs =>
    ((b ^^^ xk.next.1) :: (cryptBytes xk.next.2 bs).1,
     (cryptBytes xk.next.2 bs).2)

/-- Models `SCTypeCode` (`sctypecode.py`): the closed set of block type tags. -/
inductive SCTypeCode where
  | NONE | BOOL1 | BOOL2 | BOOL3 | OBJECT | ARRAY
  | BYTE | UINT16 | UINT32 | UINT64
  | SBYTE | INT16 | INT32 | INT64
  | SINGLE | DOUBLE
deriving DecidableEq, Repr

namespace SCTypeCode

/-- The numeric enum value of each tag, as declared in `sctypecode.py`. -/
def val : SCTypeCode → Nat
  | .NONE => 0 | .BOOL1 => 1 | .BOOL2 => 2 | .BOOL3 => 3
  | .OBJECT => 4 | .ARRAY => 5
  | .BYTE => 8 | .UINT16 => 9 | .UINT32 => 10 | .UINT64 => 11
  | .SBYTE => 12 | .INT16 => 13 | .INT32 => 14 | .INT64 => 15
  | .SINGLE => 16 | .DOUBLE => 17

/-- Models `SCTypeCode(n)`: decoding a raw value to a tag; Python raises
`ValueError` for a value that is not an enum member, modelled as `none`. -/
def ofVal (n : Nat) : Option SCTypeCode :=
  if n = 0 then some .NONE
  else if n = 1 then some .BOOL1
  else if n = 2 then some .BOOL2
  else if n = 3 then some .BOOL3
  else if n = 4 then some .OBJECT
  else if n = 5 then some .ARRAY
  else if n = 8 then some .BYTE
  else if n = 9 then some .UINT16
  else if n = 10 then some .UINT32
  else if n = 11 then some .UINT64
  else if n = 12 then some .SBYTE
  else if n = 13 then some .INT16
  else if n = 14 then some .INT32
  else if n = 15 then some .INT64
  else if n = 16 then some .SINGLE
  else if n = 17 then some .DOUBLE
  else none

/-- Models `SCTypeCode.get_type_size`: fixed byte size of a tag; `none` models the
`ValueError` raised for tags that have no fixed size. -/
def getTypeSize : SCTypeCode → Option Nat
  | .BOOL3 => some 1
  | .BYTE | .SBYTE => some 1
  | .UINT16 | .INT16 => some 2
  | .UINT32 | .INT32 | .SINGLE => some 4
  | .UINT64 | .INT64 | .DOUBLE => some 8
  | _ => none

end SCTypeCode

/-- Models `SCBlock` (`scblock.py`): key, type tag, raw payload bytes, and the
array element sub-tag (`NONE` when not an array). -/
structure SCBlock where
  key : Nat
  type : SCTypeCode
  raw : List Nat
  subType : SCTypeCode
deriving DecidableEq, Repr

theorem ofVal_val (t : SCTypeCode) : SCTypeCode.ofVal t.val = some t := by
  cases t <;> rfl

theorem val_ofVal {n : Nat} {t : SCTypeCode} (h : SCTypeCode.ofVal n = some t) :
    t.val = n := by
  rcases n with _|_|_|_|_|_|_|_|_|_|_|_|_|_|_|_|_|_|m
  all_goals first
  | (simp_all [SCTypeCode.ofVal]
     subst h
     rfl)
  | · simp only [SCTypeCode.ofVal] at h
      repeat rw [if_neg (by omega)] at h
      exact absurd h (by simp)

theorem getTypeSize_pos {t : SCTypeCode} {sz : Nat}
    (h : t.getTypeSize = some sz) : 0 < sz := by
  cases t <;> simp_all [SCTypeCode.getTypeSize] <;> omega

/-- Errors raised by the block decoder (`ValueError` messages in
`scblock.py`); the truncation constructors correspond one to one with the
`Insufficient data for ...` messages, `unknownTypeCode` with the enum
constructor `ValueError`, and `unsupportedType` with the
`Unsupported type` error of `get_type_size`. -/
inductive DecodeErr where
  | truncKey | truncType
  | truncObjLen | truncObjPayload
  | truncArrCount | truncArrSub | truncArrPayload
  | truncValue
  | unknownTypeCode (v : Nat)
  | unsupportedType (t : SCTypeCode)
deriving DecidableEq, Repr

/-- Little-endian 32-bit read: semantics of `struct.unpack` with the
format used throughout `scblock.py` (the caller checks bounds first). -/
def readU32LE (data : List Nat) (off : Nat) : Nat :=
  data.getD off 0 + 256 * data.getD (off + 1) 0
    + 65536 * data.getD (off + 2) 0 + 16777216 * data.getD (off + 3) 0

/-- Little-endian 32-bit write: semantics of `struct.pack` for a value
already checked to be below `2 ^ 32`. -/
def u32ToBytesLE (n : Nat) : List Nat :=
  [n % 256, n / 256 % 256, n / 65536 % 256, n / 16777216 % 256]

/-- Python slice `data[off : off + n]`. -/
def slice (data : List Nat) (off n : Nat) : List Nat :=
  (data.drop off).take n

/-- Models `SCBlock.write_block` (with `write_key = True`, the only form
`SwishCrypto.encrypt` uses).  Returns `none` exactly where the Python
code raises: `struct.pack` on a key or 32-bit field out of range,
`bytearray.append` on a byte out of range, and `get_type_size` on an
array whose sub-tag has no fixed size. -/
def writeBlock (b : SCBlock) : Option (List Nat) :=
  if b.key < 4294967296 ∧ ∀ x ∈ b.raw, x < 256 then
    let xk := SCXorShift32.ofSeed b.key
    let k0 := xk.next.1
    let xk := xk.next.2
    let typeByte := b.type.val ^^^ k0
    let mid : Option (List Nat × SCXorShift32) :=
      if b.type = .OBJECT then
        let w := xk.next32.1
        if b.raw.length ^^^ w < 4294967296 then
          some (u32ToBytesLE (b.raw.length ^^^ w), xk.next32.2)
        else none
      else if b.type = .ARRAY then
        match b.subType.getTypeSize with
        | none => none
        | some sz =>
          let entries := b.raw.length / sz
          let w := xk.next32.1
          if entries ^^^ w < 4294967296 then
            some (u32ToBytesLE (entries ^^^ w)
                    ++ [b.subType.val ^^^ xk.next32.2.next.1],
                  xk.next32.2.next.2)
          else none
      else some ([], xk)
    match mid with
    | none => none
    | some (midBytes, xk) =>
      some (u32ToBytesLE b.key ++ typeByte :: midBytes
              ++ (cryptBytes xk b.raw).1)
  else none

/-- Models `SCBlock._read_from_offset_with_key`: decode one block body
given the already-read key, starting right after the key bytes.  The
debug-only `_ensure_array_is_sane` call prints warnings and never alters
the result, so it has no counterpart here. -/
def readWithKey (data : List Nat) (key offset : Nat) :
    Except DecodeErr (SCBlock × Nat) :=
  let xk := SCXorShift32.ofSeed key
  if data.length ≤ offset then .error .truncType
  else
    let k0 := xk.next.1
    let xk := xk.next.2
    match SCTypeCode.ofVal (data.getD offset 0 ^^^ k0) with
    | none => .error (.unknownTypeCode (data.getD offset 0 ^^^ k0))
    | some bt =>
      if bt = .BOOL1 ∨ bt = .BOOL2 ∨ bt = .BOOL3 then
        .ok (⟨key, bt, [], .NONE⟩, offset + 1)
      else if bt = .OBJECT then
        if data.length < offset + 5 then .error .truncObjLen
        else
          let w := xk.next32.1
          let xk := xk.next32.2
          let numBytes := readU32LE data (offset + 1) ^^^ w
          if data.length < offset + 5 + numBytes then .error .truncObjPayload
          else
            .ok (⟨key, bt, (cryptBytes xk (slice data (offset + 5) numBytes)).1,
                   .NONE⟩,
                 offset + 5 + numBytes)
      else if bt = .ARRAY then
        if data.length < offset + 5 then .error .truncArrCount
        else
          let w := xk.next32.1
          let xk := xk.next32.2
          let numEntries := readU32LE data (offset + 1) ^^^ w
          if data.length ≤ offset + 5 then .error .truncArrSub
          else
            let k1 := xk.next.1
            let xk := xk.next.2
            match SCTypeCode.ofVal (data.getD (offset + 5) 0 ^^^ k1) with
            | none => .error (.unknownTypeCode (data.getD (offset + 5) 0 ^^^ k1))
            | some st =>
              match st.getTypeSize with
              | none => .error (.unsupportedType st)
              | some sz =>
                let numBytes := numEntries * sz
                if data.length < offset + 6 + numBytes then
                  .error .truncArrPayload
                else
                  .ok (⟨key, .ARRAY,
                         (cryptBytes xk (slice data (offset + 6) numBytes)).1,
                         st⟩,
                       offset + 6 + numBytes)
      else
        match bt.getTypeSize with
        | none => .error (.unsupportedType bt)
        | some sz =>
          if data.length < offset + 1 + sz then .error .truncValue
          else
            .ok (⟨key, bt, (cryptBytes xk (slice data (offset + 1) sz)).1,
                   .NONE⟩,
                 offset + 1 + sz)

/-- Models `SCBlock.read_from_offset`: read the plaintext key, then the
block body. -/
def readFromOffset (data : List Nat) (offset : Nat) :
    Except DecodeErr (SCBlock × Nat) :=
  if data.length < offset + 4 then .error .truncKey
  else readWithKey data (readU32LE data offset) (offset + 4)

/-- Models `SCBlock.get_total_length` in its `key = None` form (key read
from the first four bytes, offset starting at 4): the standalone length
computation of an encoded block.  Returns `none` wherever the Python
code raises. -/
def getTotalLength (data : List Nat) : Option Nat :=
  if data.length < 4 then none
  else
    let key := readU32LE data 0
    let xk := SCXorShift32.ofSeed key
    if data.length ≤ 4 then none
    else
      let k0 := xk.next.1
      let xk := xk.next.2
      match SCTypeCode.ofVal (data.getD 4 0 ^^^ k0) with
      | none => none
      | some bt =>
        if bt = .BOOL1 ∨ bt = .BOOL2 ∨ bt = .BOOL3 then some 5
        else if bt = .OBJECT then
          if data.length < 9 then none
          else some (9 + (readU32LE data 5 ^^^ xk.next32.1))
        else if bt = .ARRAY then
          if data.length < 9 then none
          else
            let w := xk.next32.1
            let xk := xk.next32.2
            let count := readU32LE data 5 ^^^ w
            if data.length ≤ 9 then none
            else
              match SCTypeCode.ofVal (data.getD 9 0 ^^^ xk.next.1) with
              | none => none
              | some st =>
                match st.getTypeSize with
                | none => none
                | some sz => some (10 + sz * count)
        else
          match bt.getTypeSize with
          | none => none
          | some sz => some (5 + sz)

theorem readWithKey_ok_bounds {data : List Nat} {key offset : Nat}
    {b : SCBlock} {off' : Nat}
    (h : readWithKey data key offset = .ok (b, off')) :
    offset < off' ∧ off' ≤ data.length := by
  simp only [readWithKey] at h
  repeat' split at h
  all_goals first
  | exact Except.noConfusion h
  | (simp only [Except.ok.injEq, Prod.mk.injEq] at h
     obtain ⟨h3, h4⟩ := h
     subst h4
     omega)

theorem readFromOffset_ok_bounds {data : List Nat} {offset : Nat}
    {b : SCBlock} {off' : Nat}
    (h : readFromOffset data offset = .ok (b, off')) :
    offset < off' ∧ off' ≤ data.length := by
  unfold readFromOffset at h
  split at h
  · exact absurd h (by simp)
  · have := readWithKey_ok_bounds h
    omega

/-- Models the block-reading loop of `SwishCrypto.read_blocks`:
repeatedly decode a block while the offset is below the end of the
buffer.  The fuel argument bounds the iteration count and only forces
structural recursion: every successful block read advances the offset
(`readFromOffset_ok_bounds`), so with fuel at least
`data.length - offset` the zero-fuel case is unreachable. -/
def readBlocksAux (data : List Nat) : Nat → Nat → Except DecodeErr (List SCBlock)
  | offset, fuel =>
    if offset < data.length then
      match fuel with
      | 0 => .ok []
      | fuel + 1 =>
        match readFromOffset data offset with
        | .error e => .error e
        | .ok (b, off') =>
          match readBlocksAux data off' fuel with
          | .error e => .error e
          | .ok rest => .ok (b :: rest)
    else .ok []

/-- Models `SwishCrypto.read_blocks`. -/
def readBlocks (data : List Nat) : Except DecodeErr (List SCBlock) :=
  readBlocksAux data 0 data.length

/-- Error of `SCBlock.change_data`: the single `ValueError` raised there
reports that the payload size cannot change. -/
inductive SizeErr where
  | sizeMismatch
deriving DecidableEq, Repr

/-- Models `SCBlock.change_data`: replace the payload with a same-sized
byte string; a size change raises `ValueError` and leaves the block
untouched. -/
def changeData (b : SCBlock) (value : List Nat) : Except SizeErr SCBlock :=
  if value.length ≠ b.raw.length then .error .sizeMismatch
  else .ok { b with raw := value }

/-- Models `SwishCrypto.STATIC_XORPAD`: the fixed 128-byte constant table
(the final entry is 0). -/
def STATIC_XORPAD : List Nat := [
  0xA0, 0x92, 0xD1, 0x06, 0x07, 0xDB, 0x32, 0xA1,
  0xAE, 0x01, 0xF5, 0xC5, 0x1E, 0x84, 0x4F, 0xE3,
  0x53, 0xCA, 0x37, 0xF4, 0xA7, 0xB0, 0x4D, 0xA0,
  0x18, 0xB7, 0xC2, 0x97, 0xDA, 0x5F, 0x53, 0x2B,
  0x75, 0xFA, 0x48, 0x16, 0xF8, 0xD4, 0x8A, 0x6F,
  0x61, 0x05, 0xF4, 0xE2, 0xFD, 0x04, 0xB5, 0xA3,
  0x0F, 0xFC, 0x44, 0x92, 0xCB, 0x32, 0xE6, 0x1B,
  0xB9, 0xB1, 0x2E, 0x01, 0xB0, 0x56, 0x53, 0x36,
  0xD2, 0xD1, 0x50, 0x3D, 0xDE, 0x5B, 0x2E, 0x0E,
  0x52, 0xFD, 0xDF, 0x2F, 0x7B, 0xCA, 0x63, 0x50,
  0xA4, 0x67, 0x5D, 0x23, 0x17, 0xC0, 0x52, 0xE1,
  0xA6, 0x30, 0x7C, 0x2B, 0xB6, 0x70, 0x36, 0x5B,
  0x2A, 0x27, 0x69, 0x33, 0xF5, 0x63, 0x7B, 0x36,
  0x3F, 0x26, 0x9B, 0xA3, 0xED, 0x7A, 0x53, 0x00,
  0xA4, 0x48, 0xB3, 0x50, 0x9E, 0x14, 0xA0, 0x52,
  0xDE, 0x7E, 0x10, 0x2B, 0x1B, 0x77, 0x6E, 0]

/-- Apply a position-dependent function to every list element; the first
argument of `f` is the absolute index of the element. -/
def applyPointwise (f : Nat → Nat → Nat) : Nat → List Nat → List Nat
  | _, [] => []
  | j, b :: bs => f j b :: applyPointwise f (j + 1) bs

/-- One full chunk of the static xorpad loop: the inner
`for i in range(len(xp)): if offset + i < len(data): data[offset+i] ^= xp[i]`
of `crypt_static_xorpad_bytes` expressed pointwise (all 128 table bytes
are applied, though the chunk stride is 127). -/
def applyChunk (data : List Nat) (off : Nat) : List Nat :=
  applyPointwise
    (fun j b =>
      if off ≤ j ∧ j < off + 128 then b ^^^ STATIC_XORPAD.getD (j - off) 0
      else b)
    0 data

/-- The remainder loop of `crypt_static_xorpad_bytes`:
`for i in range(len(data) - offset): data[offset+i] ^= xp[i]`. -/
def applyTail (data : List Nat) (off : Nat) : List Nat :=
  applyPointwise
    (fun j b => if off ≤ j then b ^^^ STATIC_XORPAD.getD (j - off) 0 else b)
    0 data

/-- Models `SwishCrypto.crypt_static_xorpad_bytes`: the file-wide XOR
scrambling layer.  The chunk count `(len(data) - 1) // 127` and the
stride of 127 (not 128) follow the source; Python floor division giving
`-1` on an empty buffer and `Nat` subtraction giving `0` both produce
zero chunk iterations and an empty remainder, hence agree. -/
def cryptStaticXorpadBytes (data : List Nat) : List Nat :=
  let iterations := (data.length - 1) / 127
  applyTail
    ((List.range iterations).foldl (fun d k => applyChunk d (127 * k)) data)
    (127 * iterations)

theorem length_applyPointwise (f : Nat → Nat → Nat) (s : Nat) (l : List Nat) :
    (applyPointwise f s l).length = l.length := by
  induction l generalizing s with
  | nil => rfl
  | cons b bs ih => simp [applyPointwise, ih]

theorem getD_applyPointwise (f : Nat → Nat → Nat) (s : Nat) (l : List Nat)
    (i : Nat) (hi : i < l.length) :
    (applyPointwise f s l).getD i 0 = f (s + i) (l.getD i 0) := by
  induction l generalizing s i with
  | nil => simp at hi
  | cons b bs ih =>
    cases i with
    | zero => simp [applyPointwise]
    | succ n =>
      simp only [applyPointwise, List.getD_cons_succ]
      rw [ih (s + 1) n (by simpa using hi)]
      ring_nf

/-- Contribution of the chunk starting at `off` to the byte at absolute
index `i` (zero when the chunk does not cover `i`). -/
def chunkTermAt (off i : Nat) : Nat :=
  if off ≤ i ∧ i < off + 128 then STATIC_XORPAD.getD (i - off) 0 else 0

/-- Accumulated xorpad contribution of the first `n` full chunks to the
byte at index `i`. -/
def padFold : Nat → Nat → Nat
  | 0, _ => 0
  | n + 1, i => padFold n i ^^^ chunkTermAt (127 * n) i

theorem length_applyChunk (d : List Nat) (off : Nat) :
    (applyChunk d off).length = d.length :=
  length_applyPointwise _ _ _

theorem length_applyTail (d : List Nat) (off : Nat) :
    (applyTail d off).length = d.length :=
  length_applyPointwise _ _ _

theorem getD_applyChunk (d : List Nat) (off i : Nat) (hi : i < d.length) :
    (applyChunk d off).getD i 0 = d.getD i 0 ^^^ chunkTermAt off i := by
  unfold applyChunk chunkTermAt
  rw [getD_applyPointwise _ _ _ _ hi]
  simp only [Nat.zero_add]
  split <;> simp

theorem getD_applyTail (d : List Nat) (off i : Nat) (hi : i < d.length) :
    (applyTail d off).getD i 0
      = d.getD i 0
          ^^^ (if off ≤ i then STATIC_XORPAD.getD (i - off) 0 else 0) := by
  unfold applyTail
  rw [getD_applyPointwise _ _ _ _ hi]
  simp only [Nat.zero_add]
  split <;> simp

theorem foldl_chunks_length (d : List Nat) (n : Nat) :
    ((List.range n).foldl (fun d k => applyChunk d (127 * k)) d).length
      = d.length := by
  induction n generalizing d with
  | zero => rfl
  | succ m ih =>
    rw [List.range_succ, List.foldl_append]
    simp [length_applyChunk, ih]

theorem foldl_chunks_getD (d : List Nat) (n i : Nat) (hi : i < d.length) :
    ((List.range n).foldl (fun d k => applyChunk d (127 * k)) d).getD i 0
      = d.getD i 0 ^^^ padFold n i := by
  induction n with
  | zero => simp [padFold]
  | succ m ih =>
    rw [List.range_succ, List.foldl_append]
    simp only [List.foldl_cons, List.foldl_nil]
    rw [getD_applyChunk _ _ _ (by rw [foldl_chunks_length]; exact hi), ih]
    simp [padFold, Nat.xor_assoc]

theorem STATIC_XORPAD_last : STATIC_XORPAD.getD 127 0 = 0 := by decide

theorem padFold_eq (n i : Nat) :
    padFold n i
      = if i / 127 < n then STATIC_XORPAD.getD (i % 127) 0 else 0 := by
  induction n with
  | zero => simp [padFold]
  | succ m ih =>
    rw [padFold, ih]
    rcases Nat.lt_trichotomy (i / 127) m with h | h | h
    · rw [if_pos h, if_pos (by omega)]
      have : chunkTermAt (127 * m) i = 0 := by
        unfold chunkTermAt
        rw [if_neg (by omega)]
      rw [this, Nat.xor_zero]
    · rw [if_neg (by omega), if_pos (by omega)]
      unfold chunkTermAt
      rw [if_pos (by omega)]
      have : i - 127 * m = i % 127 := by omega
      rw [this, Nat.zero_xor]
    · rw [if_neg (by omega), if_neg (by omega)]
      unfold chunkTermAt
      split
      · have : i - 127 * m = 127 := by omega
        rw [this, STATIC_XORPAD_last]
        rfl
      · rfl

theorem length_cryptStaticXorpadBytes (d : List Nat) :
    (cryptStaticXorpadBytes d).length = d.length := by
  unfold cryptStaticXorpadBytes
  rw [length_applyTail, foldl_chunks_length]

theorem getD_cryptStaticXorpadBytes (d : List Nat) (i : Nat)
    (hi : i < d.length) :
    (cryptStaticXorpadBytes d).getD i 0
      = d.getD i 0 ^^^ STATIC_XORPAD.getD (i % 127) 0 := by
  unfold cryptStaticXorpadBytes
  rw [getD_applyTail _ _ _ (by rw [foldl_chunks_length]; exact hi),
    foldl_chunks_getD _ _ _ hi, padFold_eq, Nat.xor_assoc]
  rcases Nat.lt_or_ge (i / 127) ((d.length - 1) / 127) with h | h
  · rw [if_pos h, if_neg (by omega), Nat.xor_zero]
  · have hle : i / 127 ≤ (d.length - 1) / 127 :=
      Nat.div_le_div_right (by omega)
    have heq : i / 127 = (d.length - 1) / 127 := by omega
    rw [if_neg (by omega), if_pos (by omega), Nat.zero_xor]
    have : i - 127 * ((d.length - 1) / 127) = i % 127 := by omega
    rw [this]

theorem cryptStaticXorpadBytes_involutive (d : List Nat) :
    cryptStaticXorpadBytes (cryptStaticXorpadBytes d) = d := by
  apply List.ext_getElem
  · rw [length_cryptStaticXorpadBytes, length_cryptStaticXorpadBytes]
  · intro i h1 h2
    have hlen : i < (cryptStaticXorpadBytes d).length := by
      rw [length_cryptStaticXorpadBytes]; exact h2
    have e1 : (cryptStaticXorpadBytes (cryptStaticXorpadBytes d)).getD i 0
        = d.getD i 0 := by
      rw [getD_cryptStaticXorpadBytes _ _ hlen,
        getD_cryptStaticXorpadBytes _ _ h2, Nat.xor_assoc, Nat.xor_self,
        Nat.xor_zero]
    rw [List.getD_eq_getElem _ _ h1, List.getD_eq_getElem _ _ h2] at e1
    exact e1

/-- Right rotation of a 32-bit word. -/
def rotr32 (n w : Nat) : Nat :=
  ((w >>> n) ||| (w <<< (32 - n))) % 4294967296

/-- Round constants of SHA-256 (FIPS 180-4); models the fixed function
`hashlib.sha256` used by `SwishCrypto.compute_hash`. -/
def sha256K : List Nat := [
  1116352408, 1899447441, 3049323471, 3921009573,
  961987163, 1508970993, 2453635748, 2870763221,
  3624381080, 310598401, 607225278, 1426881987,
  1925078388, 2162078206, 2614888103, 3248222580,
  3835390401, 4022224774, 264347078, 604807628,
  770255983, 1249150122, 1555081692, 1996064986,
  2554220882, 2821834349, 2952996808, 3210313671,
  3336571891, 3584528711, 113926993, 338241895,
  666307205, 773529912, 1294757372, 1396182291,
  1695183700, 1986661051, 2177026350, 2456956037,
  2730485921, 2820302411, 3259730800, 3345764771,
  3516065817, 3600352804, 4094571909, 275423344,
  430227734, 506948616, 659060556, 883997877,
  958139571, 1322822218, 1537002063, 1747873779,
  1955562222, 2024104815, 2227730452, 2361852424,
  2428436474, 2756734187, 3204031479, 3329325298]

/-- Initial hash state of SHA-256. -/
def sha256H0 : List Nat := [
  1779033703, 3144134277, 1013904242, 2773480762,
  1359893119, 2600822924, 528734635, 1541459225]

/-- Big-endian 8-byte rendering of the SHA-256 bit length. -/
def be64Bytes (n : Nat) : List Nat :=
  [n / 72057594037927936 % 256, n / 281474976710656 % 256,
   n / 1099511627776 % 256, n / 4294967296 % 256,
   n / 16777216 % 256, n / 65536 % 256, n / 256 % 256, n % 256]

/-- Big-endian 4-byte rendering of a 32-bit word. -/
def be32Bytes (w : Nat) : List Nat :=
  [w / 16777216 % 256, w / 65536 % 256, w / 256 % 256, w % 256]

/-- SHA-256 message padding: append `0x80`, zeros to 56 mod 64, and the
64-bit big-endian bit length. -/
def shaPad (msg : List Nat) : List Nat :=
  msg ++ 128 :: List.replicate ((55 + 64 - msg.length % 64) % 64) 0
    ++ be64Bytes (msg.length * 8)

/-- Group bytes into big-endian 32-bit words. -/
def toWordsBE : List Nat → List Nat
  | b0 :: b1 :: b2 :: b3 :: rest =>
    (b0 * 16777216 + b1 * 65536 + b2 * 256 + b3) :: toWordsBE rest
  | _ => []

/-- Split a word list into 16-word chunks; the explicit iteration bound
is never exhausted when it is at least the list length. -/
def chunks16Aux : Nat → List Nat → List (List Nat)
  | 0, _ => []
  | fuel + 1, l => if l = [] then [] else l.take 16 :: chunks16Aux fuel (l.drop 16)

/-- Split a word list into 16-word chunks. -/
def chunks16 (l : List Nat) : List (List Nat) :=
  chunks16Aux l.length l

/-- Extend the 16 chunk words to the 64-entry SHA-256 message schedule. -/
def extendWords (acc : List Nat) : Nat → List Nat
  | 0 => acc
  | n + 1 =>
    let L := acc.length
    let s0 := rotr32 7 (acc.getD (L - 15) 0) ^^^ rotr32 18 (acc.getD (L - 15) 0)
      ^^^ (acc.getD (L - 15) 0 >>> 3)
    let s1 := rotr32 17 (acc.getD (L - 2) 0) ^^^ rotr32 19 (acc.getD (L - 2) 0)
      ^^^ (acc.getD (L - 2) 0 >>> 10)
    extendWords
      (acc ++ [(acc.getD (L - 16) 0 + s0 + acc.getD (L - 7) 0 + s1) % 4294967296])
      n

/-- One SHA-256 compression round; `kw` is the sum of the round constant
and the schedule word. -/
def shaRound (st : List Nat) (kw : Nat) : List Nat :=
  let a := st.getD 0 0
  let b := st.getD 1 0
  let c := st.getD 2 0
  let d := st.getD 3 0
  let e := st.getD 4 0
  let f := st.getD 5 0
  let g := st.getD 6 0
  let h := st.getD 7 0
  let S1 := rotr32 6 e ^^^ rotr32 11 e ^^^ rotr32 25 e
  let ch := (e &&& f) ^^^ ((e ^^^ 4294967295) &&& g)
  let t1 := (h + S1 + ch + kw) % 4294967296
  let S0 := rotr32 2 a ^^^ rotr32 13 a ^^^ rotr32 22 a
  let mj := (a &&& b) ^^^ (a &&& c) ^^^ (b &&& c)
  let t2 := (S0 + mj) % 4294967296
  [(t1 + t2) % 4294967296, a, b, c, (d + t1) % 4294967296, e, f, g]

/-- Process one 16-word chunk against the running hash state. -/
def shaProcessChunk (h : List Nat) (chunk : List Nat) : List Nat :=
  let w := extendWords chunk 48
  let st := (sha256K.zip w).foldl (fun st kw => shaRound st (kw.1 + kw.2)) h
  List.zipWith (fun x y => (x + y) % 4294967296) h st

/-- SHA-256 digest of a byte list: the mathematical function computed by
`hashlib.sha256(...).digest()`. -/
def sha256 (msg : List Nat) : List Nat :=
  (((chunks16 (toWordsBE (shaPad msg))).foldl shaProcessChunk sha256H0).map
    be32Bytes).flatten

/-- Models `SwishCrypto.INTRO_HASH_BYTES`: fixed 64-byte hash framing
prefix. -/
def INTRO_HASH_BYTES : List Nat := [
  0x9E, 0xC9, 0x9C, 0xD7, 0x0E, 0xD3, 0x3C, 0x44,
  0xFB, 0x93, 0x03, 0xDC, 0xEB, 0x39, 0xB4, 0x2A,
  0x19, 0x47, 0xE9, 0x63, 0x4B, 0xA2, 0x33, 0x44,
  0x16, 0xBF, 0x82, 0xA2, 0xBA, 0x63, 0x55, 0xB6,
  0x3D, 0x9D, 0xF2, 0x4B, 0x5F, 0x7B, 0x6A, 0xB2,
  0x62, 0x1D, 0xC2, 0x1B, 0x68, 0xE5, 0xC8, 0xB5,
  0x3A, 0x05, 0x90, 0x00, 0xE8, 0xA8, 0x10, 0x3D,
  0xE2, 0xEC, 0xF0, 0x0C, 0xB2, 0xED, 0x4F, 0x6D]

/-- Models `SwishCrypto.OUTRO_HASH_BYTES`: fixed 64-byte hash framing
suffix. -/
def OUTRO_HASH_BYTES : List Nat := [
  0xD6, 0xC0, 0x1C, 0x59, 0x8B, 0xC8, 0xB8, 0xCB,
  0x46, 0xE1, 0x53, 0xFC, 0x82, 0x8C, 0x75, 0x75,
  0x13, 0xE0, 0x45, 0xDF, 0x32, 0x69, 0x3C, 0x75,
  0xF0, 0x59, 0xF8, 0xD9, 0xA2, 0x5F, 0xB2, 0x17,
  0xE0, 0x80, 0x52, 0xDB, 0xEA, 0x89, 0x73, 0x99,
  0x75, 0x79, 0xAF, 0xCB, 0x2E, 0x80, 0x07, 0xE6,
  0xF1, 0x26, 0xE0, 0x03, 0x0A, 0xE6, 0x6F, 0xF6,
  0x41, 0xBF, 0x7E, 0x59, 0xC2, 0xAE, 0x55, 0xFD]

/-- Models `SwishCrypto.SIZE_HASH`: the SHA-256 digest size. -/
def SIZE_HASH : Nat := 32

/-- Models `SwishCrypto.compute_hash`: SHA-256 over intro bytes, payload,
outro bytes. -/
def computeHash (data : List Nat) : List Nat :=
  sha256 (INTRO_HASH_BYTES ++ data ++ OUTRO_HASH_BYTES)

/-- Models `SwishCrypto.get_is_hash_valid`: files shorter than the digest
are invalid; otherwise the hash of everything but the trailing 32 bytes
is compared with those 32 bytes. -/
def getIsHashValid (data : List Nat) : Bool :=
  if data.length < SIZE_HASH then false
  else computeHash (data.take (data.length - SIZE_HASH))
        == data.drop (data.length - SIZE_HASH)

/-- Models `SwishCrypto.decrypt`: strip the trailing hash, undo the static
xorpad in place, then unpack the block sequence. -/
def decrypt (data : List Nat) : Except DecodeErr (List SCBlock) :=
  readBlocks (cryptStaticXorpadBytes (data.take (data.length - SIZE_HASH)))

/-- Models `SwishCrypto.get_decrypted_raw_data`: concatenated encoded
blocks followed by 32 placeholder bytes; `none` wherever `write_block`
raises. -/
def getDecryptedRawData (blocks : List SCBlock) : Option (List Nat) :=
  match blocks.mapM writeBlock with
  | none => none
  | some bss => some (bss.flatten ++ List.replicate SIZE_HASH 0)

/-- Models `SwishCrypto.encrypt`: serialize all blocks, apply the static
xorpad to everything except the 32 placeholder bytes, then overwrite the
placeholder with the hash of the scrambled payload. -/
def encrypt (blocks : List SCBlock) : Option (List Nat) :=
  match getDecryptedRawData blocks with
  | none => none
  | some raw =>
    let payload := cryptStaticXorpadBytes (raw.take (raw.length - SIZE_HASH))
    some (payload ++ computeHash payload)

/-- Errors of the boxed value accessors: `notPrimitive` is the
`SCBlock`-level guard, `insufficientData` and `unsupported` are the
`ValueError` cases of `sctypecode.py`, `packError` is the range or
buffer-size `struct.error` of `struct.pack_into`, and `floatTag` marks
the two IEEE-754 tags whose float semantics is outside this integer
embedding. -/
inductive ValueErr where
  | notPrimitive | insufficientData | unsupported | packError | floatTag
deriving DecidableEq, Repr

/-- Little-endian value of a byte list. -/
def leValue (bytes : List Nat) : Nat :=
  bytes.foldr (fun b acc => b + 256 * acc) 0

/-- Little-endian bytes of a value, fixed width. -/
def leBytes : Nat → Nat → List Nat
  | 0, _ => []
  | k + 1, n => n % 256 :: leBytes k (n / 256)

/-- Two's-complement reading of a `w`-bit unsigned value. -/
def toSigned (w v : Nat) : Int :=
  if v < 2 ^ (w - 1) then (v : Int) else (v : Int) - 2 ^ w

/-- Models `SCTypeCode.get_value` for the integer tags: read the boxed
scalar from the payload bytes.  The two float tags answer `floatTag`
(Python would unpack an IEEE-754 float, which this embedding does not
model); every other deviation from `ok` matches a Python raise. -/
def getValueOfType (t : SCTypeCode) (data : List Nat) : Except ValueErr Int :=
  match t.getTypeSize with
  | none => .error .unsupported
  | some sz =>
    if data.length < sz then .error .insufficientData
    else
      match t with
      | .BYTE | .UINT16 | .UINT32 | .UINT64 => .ok (leValue (data.take sz))
      | .SBYTE | .INT16 | .INT32 | .INT64 =>
        .ok (toSigned (8 * sz) (leValue (data.take sz)))
      | .SINGLE | .DOUBLE => .error .floatTag
      | _ => .error .unsupported

/-- Models `SCTypeCode.set_value` for the integer tags.  `BYTE` and
`SBYTE` assign `value & 0xFF` into the first byte (masking, hence
wrapping, exactly as the source does); the six multi-byte integer tags
go through `struct.pack_into`, which rejects any value outside the
format range instead of wrapping, and also rejects a too-small buffer.
The float tags answer `floatTag` as in `getValueOfType`. -/
def setValueOfType (t : SCTypeCode) (data : List Nat) (value : Int) :
    Except ValueErr (List Nat) :=
  match t with
  | .BYTE | .SBYTE =>
    if data.length < 1 then .error .packError
    else .ok (data.set 0 (value % 256).toNat)
  | .UINT16 =>
    if 0 ≤ value ∧ value < 65536 ∧ 2 ≤ data.length then
      .ok (leBytes 2 value.toNat ++ data.drop 2)
    else .error .packError
  | .UINT32 =>
    if 0 ≤ value ∧ value < 4294967296 ∧ 4 ≤ data.length then
      .ok (leBytes 4 value.toNat ++ data.drop 4)
    else .error .packError
  | .UINT64 =>
    if 0 ≤ value ∧ value < 18446744073709551616 ∧ 8 ≤ data.length then
      .ok (leBytes 8 value.toNat ++ data.drop 8)
    else .error .packError
  | .INT16 =>
    if -32768 ≤ value ∧ value < 32768 ∧ 2 ≤ data.length then
      .ok (leBytes 2 (value % 65536).toNat ++ data.drop 2)
    else .error .packError
  | .INT32 =>
    if -2147483648 ≤ value ∧ value < 2147483648 ∧ 4 ≤ data.length then
      .ok (leBytes 4 (value % 4294967296).toNat ++ data.drop 4)
    else .error .packError
  | .INT64 =>
    if -9223372036854775808 ≤ value ∧ value < 9223372036854775808
        ∧ 8 ≤ data.length then
      .ok (leBytes 8 (value % 18446744073709551616).toNat ++ data.drop 8)
    else .error .packError
  | .SINGLE | .DOUBLE => .error .floatTag
  | _ => .error .unsupported

/-- Models `SCBlock.has_value`: the block holds a single primitive value
when its tag value exceeds the `ARRAY` tag. -/
def SCBlock.hasValue (b : SCBlock) : Bool :=
  decide (SCTypeCode.ARRAY.val < b.type.val)

/-- Models `SCBlock.get_value`. -/
def SCBlock.getValue (b : SCBlock) : Except ValueErr Int :=
  if !b.hasValue then .error .notPrimitive
  else getValueOfType b.type b.raw

/-- Models `SCBlock.set_value`. -/
def SCBlock.setValue (b : SCBlock) (value : Int) : Except ValueErr SCBlock :=
  if !b.hasValue then .error .notPrimitive
  else
    match setValueOfType b.type b.raw value with
    | .error e => .error e
    | .ok raw' => .ok { b with raw := raw' }

/-- Models `FnvHash.hash_fnv1a_32` on the UTF-8 bytes of a name: offset
basis `0x811C9DC5`, prime `0x01000193`, per byte XOR then multiply
modulo `2 ^ 32`. -/
def hashFnv1a32 (bytes : List Nat) : Nat :=
  bytes.foldl (fun h b => ((h ^^^ b) * 16777619) % 4294967296) 2166136261

/-- ASCII code of an uppercase hexadecimal digit. -/
def hexDigitChar (n : Nat) : Nat :=
  if n < 10 then 48 + n else 55 + n

/-- Hexadecimal digits, least significant first, with an explicit
iteration bound that is never exhausted when it is at least the number
itself. -/
def toHexRevAux : Nat → Nat → List Nat
  | 0, _ => []
  | fuel + 1, k => if k = 0 then [] else k % 16 :: toHexRevAux fuel (k / 16)

/-- Hexadecimal digits of a number, least significant first. -/
def toHexRev (k : Nat) : List Nat :=
  toHexRevAux k k

/-- Models the Python f-string `f"{key:08X}"` used by `hashdb.py` as the
dictionary key: uppercase hexadecimal, zero-padded to at least eight
characters, rendered as a list of character codes. -/
def hex08X (k : Nat) : List Nat :=
  let ds := if k = 0 then [0] else (toHexRev k).reverse
  (List.replicate (8 - ds.length) 0 ++ ds).map hexDigitChar

/-- Modelled from the spec: the repository imports `HashDBKeys` from
`plaza.types.accessors`, a module that is not part of the sources at
hand; per the spec it is a small set of named well-known keys, i.e.
pre-defined integer constants.  Modelled as a wrapper carrying the
constant value, which is all `HashDB.__getitem__` uses (`item.value`). -/
structure HashDBKeys where
  value : Nat
deriving DecidableEq, Repr

/-- The three kinds of lookup argument `HashDB.__getitem__` accepts: a
raw integer, a well-known symbolic constant, or a string name (modelled
by its UTF-8 bytes). -/
inductive LookupKey where
  | ofInt (k : Nat)
  | ofWellKnown (c : HashDBKeys)
  | ofName (bytes : List Nat)

/-- Models the dictionary built by `HashDB.__init__`: each block is
inserted under its rendered key; later blocks overwrite earlier ones. -/
def hashDBBuild (blocks : List SCBlock) : List Nat → Option SCBlock :=
  blocks.foldl
    (fun db b => fun s => if s = hex08X b.key then some b else db s)
    (fun _ => none)

/-- Models `HashDB.__getitem__`: render the argument to the common
8-hex-digit string form, then look it up; a miss raises `KeyError`,
modelled as `none`. -/
def hashDBGet (blocks : List SCBlock) (item : LookupKey) : Option SCBlock :=
  let s := match item with
    | .ofInt k => hex08X k
    | .ofWellKnown c => hex08X c.value
    | .ofName bytes => hex08X (hashFnv1a32 bytes)
  hashDBBuild blocks s

/-- The truncation error `SCBlock.read_from_offset` raises when the
buffer ends inside the field containing byte index `m` of a block whose
decoded type tag is `t` (layout: key bytes 0-3, type byte 4, then the
variant body). -/
def truncErrAt (t : SCTypeCode) (m : Nat) : DecodeErr :=
  if m < 4 then .truncKey
  else if m < 5 then .truncType
  else if t = .OBJECT then
    if m < 9 then .truncObjLen else .truncObjPayload
  else if t = .ARRAY then
    if m < 9 then .truncArrCount
    else if m < 10 then .truncArrSub
    else .truncArrPayload
  else .truncValue

/-- An encoded array block: plaintext key, encrypted `ARRAY` tag,
encrypted count word, encrypted sub-tag byte `subVal`, then payload
bytes; built with the same keystream positions `write_block` uses. -/
def mkArrayRaw (key count subVal : Nat) (payload : List Nat) : List Nat :=
  u32ToBytesLE key
    ++ (SCTypeCode.ARRAY.val ^^^ (SCXorShift32.ofSeed key).next.1)
      :: (u32ToBytesLE (count ^^^ (SCXorShift32.ofSeed key).next.2.next32.1)
          ++ (subVal ^^^ (SCXorShift32.ofSeed key).next.2.next32.2.next.1)
            :: payload)

/-- Legality of a single block exactly as claim C2 words it: payload
length matches the type (fixed size for scalars, zero for booleans, any
length below `2 ^ 32` for objects, a whole multiple of the element size
for arrays with an element-sized sub-tag), keys are 32-bit, payload
entries are bytes. -/
def legalBlockClaim (b : SCBlock) : Bool :=
  b.key < 4294967296 && b.raw.all (· < 256) &&
  match b.type with
  | .BOOL1 | .BOOL2 | .BOOL3 => b.raw.isEmpty
  | .OBJECT => b.raw.length < 4294967296
  | .ARRAY =>
    match b.subType.getTypeSize with
    | some sz => decide (sz ∣ b.raw.length) && b.raw.length < 4294967296
    | none => false
  | .NONE | .SINGLE | .DOUBLE | .BYTE | .UINT16 | .UINT32 | .UINT64
  | .SBYTE | .INT16 | .INT32 | .INT64 =>
    match b.type.getTypeSize with
    | some sz => b.raw.length == sz
    | none => false

/-- Legality as amended: additionally the sub-tag of a non-array block
is `NONE` (the decoder always reconstructs non-array blocks with that
sub-tag, so it is part of the round-trip invariant). -/
def legalBlock (b : SCBlock) : Bool :=
  legalBlockClaim b && (b.type == .ARRAY || b.subType == .NONE)

/-- The representable range of an integer scalar tag. -/
def inRangeOf (t : SCTypeCode) (x : Int) : Prop :=
  if t = .BYTE ∨ t = .UINT16 ∨ t = .UINT32 ∨ t = .UINT64 then
    0 ≤ x ∧ x < (2 : Int) ^ (8 * t.getTypeSize.getD 0)
  else
    -((2 : Int) ^ (8 * t.getTypeSize.getD 0 - 1)) ≤ x
      ∧ x < (2 : Int) ^ (8 * t.getTypeSize.getD 0 - 1)

/-- Reduction of an arbitrary integer to an 8-bit tag value: unsigned
wrap for `BYTE`, two's-complement wrap for `SBYTE`. -/
def wrapOf (t : SCTypeCode) (x : Int) : Int :=
  if t = .BYTE then x % 256 else toSigned 8 (x % 256).toNat

theorem getD_take (l : List Nat) (m i : Nat) (h : i < m) :
    (l.take m).getD i 0 = l.getD i 0 := by
  simp only [List.getD_eq_getElem?_getD, List.getElem?_take, if_pos h]

theorem getD_lt_of_all {data : List Nat} (h : ∀ x ∈ data, x < 256) (i : Nat) :
    data.getD i 0 < 256 := by
  rcases Nat.lt_or_ge i data.length with hi | hi
  · rw [List.getD_eq_getElem?_getD, List.getElem?_eq_getElem hi]
    exact h _ (List.getElem_mem hi)
  · rw [List.getD_eq_getElem?_getD, List.getElem?_eq_none hi]
    simp

theorem next_fst (xk : SCXorShift32) :
    xk.next.1 = (xk.state >>> (xk.counter <<< 3)) &&& 255 := by
  by_cases h : xk.counter = 3 <;> simp [SCXorShift32.next, h]

theorem next_fst_lt (xk : SCXorShift32) : xk.next.1 < 256 := by
  rw [next_fst]
  exact Nat.lt_succ_of_le Nat.and_le_right

theorem next32_fst_lt (xk : SCXorShift32) : xk.next32.1 < 4294967296 := by
  unfold SCXorShift32.next32
  have h0 := next_fst_lt xk
  have h1 := next_fst_lt xk.next.2
  have h2 := next_fst_lt xk.next.2.next.2
  have h3 := next_fst_lt xk.next.2.next.2.next.2
  simp only []
  have e : (4294967296 : Nat) = 2 ^ 32 := by norm_num
  rw [e]
  apply Nat.or_lt_two_pow
  · apply Nat.or_lt_two_pow
    · apply Nat.or_lt_two_pow
      · omega
      · rw [Nat.shiftLeft_eq]; omega
    · rw [Nat.shiftLeft_eq]; omega
  · rw [Nat.shiftLeft_eq]; omega

theorem cryptBytes_fst_length (xk : SCXorShift32) (bs : List Nat) :
    (cryptBytes xk bs).1.length = bs.length := by
  induction bs generalizing xk with
  | nil => rfl
  | cons b bs ih => simp [cryptBytes, ih]

theorem cryptBytes_snd (xk : SCXorShift32) (bs : List Nat) :
    (cryptBytes xk bs).2 = (cryptBytes xk (cryptBytes xk bs).1).2 := by
  induction bs generalizing xk with
  | nil => rfl
  | cons b bs ih => simp [cryptBytes]; exact ih _

theorem cryptBytes_involutive (xk : SCXorShift32) (bs : List Nat) :
    (cryptBytes xk (cryptBytes xk bs).1).1 = bs := by
  induction bs generalizing xk with
  | nil => rfl
  | cons b bs ih =>
    simp [cryptBytes, Nat.xor_cancel_right]
    exact ih _

theorem cryptBytes_fst_lt (xk : SCXorShift32) (bs : List Nat)
    (h : ∀ x ∈ bs, x < 256) :
    ∀ x ∈ (cryptBytes xk bs).1, x < 256 := by
  induction bs generalizing xk with
  | nil => simp [cryptBytes]
  | cons b bs ih =>
    simp only [cryptBytes, List.mem_cons]
    rintro x (rfl | hx)
    · have hb : b < 256 := h b (by simp)
      have hk := next_fst_lt xk
      exact Nat.xor_lt_two_pow (n := 8) hb hk
    · exact ih xk.next.2 (fun y hy => h y (by simp [hy])) x hx

theorem readU32LE_lt {data : List Nat} (h : ∀ x ∈ data, x < 256)
    (off : Nat) : readU32LE data off < 4294967296 := by
  unfold readU32LE
  have h0 := getD_lt_of_all h off
  have h1 := getD_lt_of_all h (off + 1)
  have h2 := getD_lt_of_all h (off + 2)
  have h3 := getD_lt_of_all h (off + 3)
  omega

theorem u32ToBytesLE_lt (n : Nat) : ∀ x ∈ u32ToBytesLE n, x < 256 := by
  unfold u32ToBytesLE
  intro x hx
  simp only [List.mem_cons, List.not_mem_nil, or_false] at hx
  rcases hx with rfl | rfl | rfl | rfl <;> omega

theorem readU32LE_u32ToBytesLE (n : Nat) (rest : List Nat)
    (h : n < 4294967296) :
    readU32LE (u32ToBytesLE n ++ rest) 0 = n := by
  unfold readU32LE u32ToBytesLE
  simp only [List.cons_append, List.nil_append, List.getD_cons_zero,
    List.getD_cons_succ]
  omega

theorem slice_eq_explicit (data : List Nat) (off : Nat)
    (h : off + 4 ≤ data.length) :
    slice data off 4
      = [data.getD off 0, data.getD (off + 1) 0,
         data.getD (off + 2) 0, data.getD (off + 3) 0] := by
  apply List.ext_getElem
  · simp [slice]
    omega
  · intro i h1 h2
    simp only [slice] at h1 ⊢
    rw [List.getElem_take, List.getElem_drop]
    simp only [List.length_take, List.length_drop] at h1
    have hi : i < 4 := by omega
    interval_cases i <;>
      simp [List.getD_eq_getElem?_getD, List.getElem?_eq_getElem,
        (by omega : off + 0 < data.length), (by omega : off + 1 < data.length),
        (by omega : off + 2 < data.length), (by omega : off + 3 < data.length)] <;>
      rw [List.getElem?_eq_getElem (by omega)] <;> simp

theorem u32ToBytesLE_readU32LE (data : List Nat) (off : Nat)
    (h : off + 4 ≤ data.length) (hb : ∀ x ∈ data, x < 256) :
    u32ToBytesLE (readU32LE data off) = slice data off 4 := by
  rw [slice_eq_explicit data off h]
  unfold u32ToBytesLE readU32LE
  have h0 := getD_lt_of_all hb off
  have h1 := getD_lt_of_all hb (off + 1)
  have h2 := getD_lt_of_all hb (off + 2)
  have h3 := getD_lt_of_all hb (off + 3)
  simp only [List.cons.injEq, and_true]
  refine ⟨by omega, by omega, by omega, by omega⟩

/-- Most-significant-digit-first base-16 value of a digit list. -/
def fromHexMSB (l : List Nat) : Nat :=
  l.foldl (fun a d => a * 16 + d) 0

theorem fromHexMSB_append_singleton (l : List Nat) (d : Nat) :
    fromHexMSB (l ++ [d]) = fromHexMSB l * 16 + d := by
  unfold fromHexMSB
  rw [List.foldl_append]
  rfl

theorem fromHexMSB_toHexRevAux (fuel : Nat) : ∀ k, k ≤ fuel →
    fromHexMSB (toHexRevAux fuel k).reverse = k := by
  induction fuel with
  | zero =>
    intro k hk
    interval_cases k
    rfl
  | succ f ih =>
    intro k hk
    rw [toHexRevAux]
    split
    · rename_i h
      subst h
      rfl
    · rename_i h
      rw [List.reverse_cons, fromHexMSB_append_singleton, ih (k / 16) (by omega)]
      omega

theorem fromHexMSB_toHexRev (k : Nat) :
    fromHexMSB (toHexRev k).reverse = k :=
  fromHexMSB_toHexRevAux k k Nat.le.refl

theorem fromHexMSB_replicate_zero (m : Nat) (l : List Nat) :
    fromHexMSB (List.replicate m 0 ++ l) = fromHexMSB l := by
  induction m with
  | zero => rfl
  | succ n ih =>
    rw [List.replicate_succ, List.cons_append]
    unfold fromHexMSB at ih ⊢
    simpa using ih

theorem hexDigitChar_injective : Function.Injective hexDigitChar := by
  intro a b h
  unfold hexDigitChar at h
  split at h <;> split at h <;> omega

theorem hex08X_injective : Function.Injective hex08X := by
  intro a b h
  unfold hex08X at h
  have h2 := (List.map_injective_iff.mpr hexDigitChar_injective) h
  have ha : fromHexMSB (List.replicate (8 - (if a = 0 then [0]
      else (toHexRev a).reverse).length) 0 ++ (if a = 0 then [0]
      else (toHexRev a).reverse)) = a := by
    rw [fromHexMSB_replicate_zero]
    split
    · rename_i h3
      subst h3
      rfl
    · exact fromHexMSB_toHexRev a
  have hb : fromHexMSB (List.replicate (8 - (if b = 0 then [0]
      else (toHexRev b).reverse).length) 0 ++ (if b = 0 then [0]
      else (toHexRev b).reverse)) = b := by
    rw [fromHexMSB_replicate_zero]
    split
    · rename_i h3
      subst h3
      rfl
    · exact fromHexMSB_toHexRev b
  rw [← ha, ← hb, h2]

theorem hashDBBuild_miss (blocks : List SCBlock) (s : List Nat)
    (h : ∀ b ∈ blocks, hex08X b.key ≠ s) :
    hashDBBuild blocks s = none := by
  unfold hashDBBuild
  suffices hgen : ∀ f0 : List Nat → Option SCBlock, f0 s = none →
      (blocks.foldl
        (fun db b => fun t => if t = hex08X b.key then some b else db t)
        f0) s = none by
    exact hgen _ rfl
  induction blocks with
  | nil => intro f0 h0; exact h0
  | cons b bs ih =>
    intro f0 h0
    rw [List.foldl_cons]
    refine ih (fun x hx => h x (by simp [hx])) _ ?_
    rw [if_neg ?_]
    · exact h0
    · intro he
      exact h b (by simp) he.symm

theorem leBytes_length (k : Nat) : ∀ n, (leBytes k n).length = k := by
  induction k with
  | zero => intro n; rfl
  | succ m ih => intro n; simp [leBytes, ih]

theorem leValue_leBytes (k : Nat) : ∀ n, leValue (leBytes k n) = n % 256 ^ k := by
  induction k with
  | zero => intro n; simp [leBytes, leValue, Nat.mod_one]
  | succ m ih =>
    intro n
    show leValue (n % 256 :: leBytes m (n / 256)) = n % 256 ^ (m + 1)
    have : leValue (n % 256 :: leBytes m (n / 256))
        = n % 256 + 256 * leValue (leBytes m (n / 256)) := rfl
    rw [this, ih, pow_succ', Nat.mod_mul]

theorem leValue_take_append (k m : Nat) (rest : List Nat) :
    leValue ((leBytes k m ++ rest).take k) = m % 256 ^ k := by
  rw [List.take_left' (leBytes_length k m), leValue_leBytes]

/-! Claim theorems. -/

/-- C3: the static scrambling layer is an involution with effective
repeat period 127.  Applying `crypt_static_xorpad_bytes` twice restores
every buffer; a single application XORs the byte at index `i` with the
128-byte table entry at index `i % 127`, and the table's last byte —
index 127, which a period of 127 never selects — is 0. -/
theorem C3_static_xorpad_involution_period (data : List Nat) :
    cryptStaticXorpadBytes (cryptStaticXorpadBytes data) = data
    ∧ (∀ i, i < data.length →
        (cryptStaticXorpadBytes data).getD i 0
          = data.getD i 0 ^^^ STATIC_XORPAD.getD (i % 127) 0)
    ∧ STATIC_XORPAD.getD 127 0 = 0 :=
  ⟨cryptStaticXorpadBytes_involutive data,
   fun i hi => getD_cryptStaticXorpadBytes data i hi,
   STATIC_XORPAD_last⟩

/-- Witness for C3 at a concrete 300-byte buffer and index 254
(254 % 127 = 0, so the pad byte is the table head 0xA0). -/
theorem C3_static_xorpad_involution_period_witness :
    cryptStaticXorpadBytes (cryptStaticXorpadBytes (List.range 300))
        = List.range 300
    ∧ (cryptStaticXorpadBytes (List.range 300)).getD 254 0 = 254 ^^^ 0xA0 := by
  refine ⟨(C3_static_xorpad_involution_period (List.range 300)).1, ?_⟩
  rw [(C3_static_xorpad_involution_period (List.range 300)).2.1 254 (by simp)]
  decide

/-- C7: replacing a block's payload succeeds exactly when the new length
equals the current payload length; on success the payload is the new
bytes with key, type and sub-tag unchanged, and on a mismatch the call
fails with the size-mismatch error, leaving the block untouched (the
model returns no block at all on failure). -/
theorem C7_change_data (b : SCBlock) (value : List Nat) :
    (value.length = b.raw.length →
      changeData b value = .ok ⟨b.key, b.type, value, b.subType⟩)
    ∧ (value.length ≠ b.raw.length →
      changeData b value = .error .sizeMismatch) := by
  unfold changeData
  constructor
  · intro h
    rw [if_neg (by omega)]
  · intro h
    rw [if_pos h]

/-- Witness for C7: a same-length replace succeeds and a short replace
fails on a concrete object block. -/
theorem C7_change_data_witness :
    changeData ⟨1, .OBJECT, [5, 6], .NONE⟩ [7, 8]
        = .ok ⟨1, .OBJECT, [7, 8], .NONE⟩
    ∧ changeData ⟨1, .OBJECT, [5, 6], .NONE⟩ [7] = .error .sizeMismatch :=
  ⟨(C7_change_data ⟨1, .OBJECT, [5, 6], .NONE⟩ [7, 8]).1 (by decide),
   (C7_change_data ⟨1, .OBJECT, [5, 6], .NONE⟩ [7]).2 (by decide)⟩

/-- C8: `get_is_hash_valid` returns false for every file shorter than 32
bytes, and otherwise returns true exactly when the SHA-256 of the fixed
64-byte intro constant, all file bytes except the last 32, and the fixed
64-byte outro constant equals the file's last 32 bytes. -/
theorem C8_hash_validity (data : List Nat) :
    getIsHashValid data = true
      ↔ 32 ≤ data.length
        ∧ sha256 (INTRO_HASH_BYTES ++ data.take (data.length - 32)
            ++ OUTRO_HASH_BYTES) = data.drop (data.length - 32) := by
  unfold getIsHashValid computeHash SIZE_HASH
  split
  · rename_i h
    simp only [Bool.false_eq_true, false_iff]
    intro hc
    omega
  · rename_i h
    rw [beq_iff_eq, List.append_assoc]
    constructor
    · intro h2
      exact ⟨by omega, h2⟩
    · rintro ⟨-, h2⟩
      exact h2

/-- C9: for an index built from a block sequence and a 32-bit key `k`,
lookup by the raw integer `k`, by a well-known symbolic constant whose
value is `k`, and by any name whose FNV-1a 32-bit hash is `k` all
resolve to the same block; and when no block with key `k` is indexed,
all three miss with the key-not-found failure. -/
theorem C9_index_lookup_agree (blocks : List SCBlock) (k : Nat)
    (c : HashDBKeys) (name : List Nat)
    (hk : k < 4294967296) (hc : c.value = k) (hn : hashFnv1a32 name = k) :
    hashDBGet blocks (.ofInt k) = hashDBGet blocks (.ofWellKnown c)
    ∧ hashDBGet blocks (.ofInt k) = hashDBGet blocks (.ofName name)
    ∧ ((∀ b ∈ blocks, b.key ≠ k) →
        hashDBGet blocks (.ofInt k) = none
        ∧ hashDBGet blocks (.ofWellKnown c) = none
        ∧ hashDBGet blocks (.ofName name) = none) := by
  simp only [hashDBGet]
  rw [hc, hn]
  refine ⟨rfl, rfl, fun hmiss => ?_⟩
  have hnone : hashDBBuild blocks (hex08X k) = none := by
    refine hashDBBuild_miss blocks _ (fun b hb he => ?_)
    exact hmiss b hb (hex08X_injective he)
  exact ⟨hnone, hnone, hnone⟩

/-- Witness for C9: with one block under the FNV-1a hash of the
single-byte name
0x61, all three lookup forms return that block. -/
theorem C9_index_lookup_agree_witness :
    hashDBGet [⟨3826002220, .BOOL1, [], .NONE⟩] (.ofInt 3826002220)
        = hashDBGet [⟨3826002220, .BOOL1, [], .NONE⟩]
            (.ofWellKnown ⟨3826002220⟩)
    ∧ hashDBGet [⟨3826002220, .BOOL1, [], .NONE⟩] (.ofInt 3826002220)
        = hashDBGet [⟨3826002220, .BOOL1, [], .NONE⟩] (.ofName [97])
    ∧ hashDBGet [⟨3826002220, .BOOL1, [], .NONE⟩] (.ofInt 3826002220)
        = some ⟨3826002220, .BOOL1, [], .NONE⟩ := by
  have h := C9_index_lookup_agree [⟨3826002220, .BOOL1, [], .NONE⟩]
    3826002220 ⟨3826002220⟩ [97] (by decide) rfl (by decide)
  exact ⟨h.1, h.2.1, by decide⟩


/-- C4 (amended): for the eight integer scalar tags, setting then getting
the boxed value round-trips at every representable value (hence at every
boundary value); out-of-range integers wrap modulo `2 ^ width` only for
the two one-byte tags, whose setter masks with `0xFF`; for the six
multi-byte integer tags an out-of-range integer is rejected by the
`struct.pack_into` range check instead of wrapping.  The two float tags
are outside this integer embedding. -/
theorem C4_scalar_set_get (t : SCTypeCode) (key : Nat) (data : List Nat)
    (x : Int)
    (ht : t = .BYTE ∨ t = .UINT16 ∨ t = .UINT32 ∨ t = .UINT64
      ∨ t = .SBYTE ∨ t = .INT16 ∨ t = .INT32 ∨ t = .INT64)
    (hlen : t.getTypeSize = some data.length) :
    (inRangeOf t x →
      ∃ b', SCBlock.setValue ⟨key, t, data, .NONE⟩ x = .ok b'
        ∧ b'.getValue = .ok x ∧ b'.key = key ∧ b'.type = t)
    ∧ ((t = .BYTE ∨ t = .SBYTE) →
      ∃ b', SCBlock.setValue ⟨key, t, data, .NONE⟩ x = .ok b'
        ∧ b'.getValue = .ok (wrapOf t x))
    ∧ (¬(t = .BYTE ∨ t = .SBYTE) → ¬inRangeOf t x →
      SCBlock.setValue ⟨key, t, data, .NONE⟩ x = .error .packError) := by
  rcases ht with rfl | rfl | rfl | rfl | rfl | rfl | rfl | rfl
  · -- BYTE
    simp only [SCTypeCode.getTypeSize, Option.some.injEq] at hlen
    obtain ⟨d, rfl⟩ := List.length_eq_one.mp hlen.symm
    refine ⟨?_, ?_, fun hc => absurd (Or.inl rfl) hc⟩
    · intro hr
      simp [inRangeOf, SCTypeCode.getTypeSize] at hr
      refine ⟨⟨key, .BYTE, [(x % 256).toNat], .NONE⟩, ?_, ?_, rfl, rfl⟩
      · simp [SCBlock.setValue, SCBlock.hasValue, SCTypeCode.val,
          setValueOfType, List.set]
      · simp [SCBlock.getValue, SCBlock.hasValue, SCTypeCode.val,
          getValueOfType, SCTypeCode.getTypeSize, leValue]
        omega
    · intro _
      refine ⟨⟨key, .BYTE, [(x % 256).toNat], .NONE⟩, ?_, ?_⟩
      · simp [SCBlock.setValue, SCBlock.hasValue, SCTypeCode.val,
          setValueOfType, List.set]
      · simp [SCBlock.getValue, SCBlock.hasValue, SCTypeCode.val,
          getValueOfType, SCTypeCode.getTypeSize, leValue, wrapOf]
        omega
  · -- UINT16
    simp only [SCTypeCode.getTypeSize, Option.some.injEq] at hlen
    refine ⟨?_, fun hb => by rcases hb with h | h <;> exact absurd h (by decide),
      fun _ hr => ?_⟩
    · intro hr
      simp [inRangeOf, SCTypeCode.getTypeSize] at hr
      refine ⟨⟨key, .UINT16, leBytes 2 x.toNat ++ data.drop 2, .NONE⟩, ?_, ?_,
        rfl, rfl⟩
      · simp only [SCBlock.setValue, SCBlock.hasValue, SCTypeCode.val,
          setValueOfType, decide_eq_true_eq]
        norm_num
        rw [if_pos (by norm_num; omega)]
      · simp only [SCBlock.getValue, SCBlock.hasValue, SCTypeCode.val,
          getValueOfType, SCTypeCode.getTypeSize, decide_eq_true_eq]
        norm_num
        rw [if_neg (by simp only [List.length_append, leBytes_length]; omega),
          leValue_take_append]
        norm_num
        omega
    · simp [inRangeOf, SCTypeCode.getTypeSize] at hr
      simp only [SCBlock.setValue, SCBlock.hasValue, SCTypeCode.val,
        setValueOfType, decide_eq_true_eq]
      norm_num
      rw [if_neg (by norm_num; omega)]
  · -- UINT32
    simp only [SCTypeCode.getTypeSize, Option.some.injEq] at hlen
    refine ⟨?_, fun hb => by rcases hb with h | h <;> exact absurd h (by decide),
      fun _ hr => ?_⟩
    · intro hr
      simp [inRangeOf, SCTypeCode.getTypeSize] at hr
      refine ⟨⟨key, .UINT32, leBytes 4 x.toNat ++ data.drop 4, .NONE⟩, ?_, ?_,
        rfl, rfl⟩
      · simp only [SCBlock.setValue, SCBlock.hasValue, SCTypeCode.val,
          setValueOfType, decide_eq_true_eq]
        norm_num
        rw [if_pos (by norm_num; omega)]
      · simp only [SCBlock.getValue, SCBlock.hasValue, SCTypeCode.val,
          getValueOfType, SCTypeCode.getTypeSize, decide_eq_true_eq]
        norm_num
        rw [if_neg (by simp only [List.length_append, leBytes_length]; omega),
          leValue_take_append]
        norm_num
        omega
    · simp [inRangeOf, SCTypeCode.getTypeSize] at hr
      simp only [SCBlock.setValue, SCBlock.hasValue, SCTypeCode.val,
        setValueOfType, decide_eq_true_eq]
      norm_num
      rw [if_neg (by norm_num; omega)]
  · -- UINT64
    simp only [SCTypeCode.getTypeSize, Option.some.injEq] at hlen
    refine ⟨?_, fun hb => by rcases hb with h | h <;> exact absurd h (by decide),
      fun _ hr => ?_⟩
    · intro hr
      simp [inRangeOf, SCTypeCode.getTypeSize] at hr
      refine ⟨⟨key, .UINT64, leBytes 8 x.toNat ++ data.drop 8, .NONE⟩, ?_, ?_,
        rfl, rfl⟩
      · simp only [SCBlock.setValue, SCBlock.hasValue, SCTypeCode.val,
          setValueOfType, decide_eq_true_eq]
        norm_num
        rw [if_pos (by norm_num; omega)]
      · simp only [SCBlock.getValue, SCBlock.hasValue, SCTypeCode.val,
          getValueOfType, SCTypeCode.getTypeSize, decide_eq_true_eq]
        norm_num
        rw [if_neg (by simp only [List.length_append, leBytes_length]; omega),
          leValue_take_append]
        norm_num
        omega
    · simp [inRangeOf, SCTypeCode.getTypeSize] at hr
      simp only [SCBlock.setValue, SCBlock.hasValue, SCTypeCode.val,
        setValueOfType, decide_eq_true_eq]
      norm_num
      rw [if_neg (by norm_num; omega)]
  · -- SBYTE
    simp only [SCTypeCode.getTypeSize, Option.some.injEq] at hlen
    obtain ⟨d, rfl⟩ := List.length_eq_one.mp hlen.symm
    refine ⟨?_, ?_, fun hc => absurd (Or.inr rfl) hc⟩
    · intro hr
      simp [inRangeOf, SCTypeCode.getTypeSize] at hr
      refine ⟨⟨key, .SBYTE, [(x % 256).toNat], .NONE⟩, ?_, ?_, rfl, rfl⟩
      · simp [SCBlock.setValue, SCBlock.hasValue, SCTypeCode.val,
          setValueOfType, List.set]
      · simp [SCBlock.getValue, SCBlock.hasValue, SCTypeCode.val,
          getValueOfType, SCTypeCode.getTypeSize, leValue, toSigned]
        split <;> omega
    · intro _
      refine ⟨⟨key, .SBYTE, [(x % 256).toNat], .NONE⟩, ?_, ?_⟩
      · simp [SCBlock.setValue, SCBlock.hasValue, SCTypeCode.val,
          setValueOfType, List.set]
      · simp [SCBlock.getValue, SCBlock.hasValue, SCTypeCode.val,
          getValueOfType, SCTypeCode.getTypeSize, leValue, wrapOf, toSigned]
  · -- INT16
    simp only [SCTypeCode.getTypeSize, Option.some.injEq] at hlen
    refine ⟨?_, fun hb => by rcases hb with h | h <;> exact absurd h (by decide),
      fun _ hr => ?_⟩
    · intro hr
      simp [inRangeOf, SCTypeCode.getTypeSize] at hr
      refine ⟨⟨key, .INT16, leBytes 2 (x % 65536).toNat ++ data.drop 2, .NONE⟩,
        ?_, ?_, rfl, rfl⟩
      · simp only [SCBlock.setValue, SCBlock.hasValue, SCTypeCode.val,
          setValueOfType, decide_eq_true_eq]
        norm_num
        rw [if_pos (by norm_num; omega)]
      · simp only [SCBlock.getValue, SCBlock.hasValue, SCTypeCode.val,
          getValueOfType, SCTypeCode.getTypeSize, decide_eq_true_eq]
        norm_num
        rw [if_neg (by simp only [List.length_append, leBytes_length]; omega),
          leValue_take_append]
        simp only [toSigned]
        norm_num
        split <;> omega
    · simp [inRangeOf, SCTypeCode.getTypeSize] at hr
      simp only [SCBlock.setValue, SCBlock.hasValue, SCTypeCode.val,
        setValueOfType, decide_eq_true_eq]
      norm_num
      rw [if_neg (by norm_num; omega)]
  · -- INT32
    simp only [SCTypeCode.getTypeSize, Option.some.injEq] at hlen
    refine ⟨?_, fun hb => by rcases hb with h | h <;> exact absurd h (by decide),
      fun _ hr => ?_⟩
    · intro hr
      simp [inRangeOf, SCTypeCode.getTypeSize] at hr
      refine ⟨⟨key, .INT32,
        leBytes 4 (x % 4294967296).toNat ++ data.drop 4, .NONE⟩,
        ?_, ?_, rfl, rfl⟩
      · simp only [SCBlock.setValue, SCBlock.hasValue, SCTypeCode.val,
          setValueOfType, decide_eq_true_eq]
        norm_num
        rw [if_pos (by norm_num; omega)]
      · simp only [SCBlock.getValue, SCBlock.hasValue, SCTypeCode.val,
          getValueOfType, SCTypeCode.getTypeSize, decide_eq_true_eq]
        norm_num
        rw [if_neg (by simp only [List.length_append, leBytes_length]; omega),
          leValue_take_append]
        simp only [toSigned]
        norm_num
        split <;> omega
    · simp [inRangeOf, SCTypeCode.getTypeSize] at hr
      simp only [SCBlock.setValue, SCBlock.hasValue, SCTypeCode.val,
        setValueOfType, decide_eq_true_eq]
      norm_num
      rw [if_neg (by norm_num; omega)]
  · -- INT64
    simp only [SCTypeCode.getTypeSize, Option.some.injEq] at hlen
    refine ⟨?_, fun hb => by rcases hb with h | h <;> exact absurd h (by decide),
      fun _ hr => ?_⟩
    · intro hr
      simp [inRangeOf, SCTypeCode.getTypeSize] at hr
      refine ⟨⟨key, .INT64,
        leBytes 8 (x % 18446744073709551616).toNat ++ data.drop 8, .NONE⟩,
        ?_, ?_, rfl, rfl⟩
      · simp only [SCBlock.setValue, SCBlock.hasValue, SCTypeCode.val,
          setValueOfType, decide_eq_true_eq]
        norm_num
        rw [if_pos (by norm_num; omega)]
      · simp only [SCBlock.getValue, SCBlock.hasValue, SCTypeCode.val,
          getValueOfType, SCTypeCode.getTypeSize, decide_eq_true_eq]
        norm_num
        rw [if_neg (by simp only [List.length_append, leBytes_length]; omega),
          leValue_take_append]
        simp only [toSigned]
        norm_num
        split <;> omega
    · simp [inRangeOf, SCTypeCode.getTypeSize] at hr
      simp only [SCBlock.setValue, SCBlock.hasValue, SCTypeCode.val,
        setValueOfType, decide_eq_true_eq]
      norm_num
      rw [if_neg (by norm_num; omega)]

/-- C4 counterexample to the claim as stated: on a `UINT16` block,
`set_value 65536` is rejected by the `struct.pack_into` range check (the
model answer is the pack error), so the stored value does not wrap
modulo `2 ^ 16` and `get_value` cannot return the reduced value 0. -/
theorem C4_wrap_counterexample :
    SCBlock.setValue ⟨0, .UINT16, [0, 0], .NONE⟩ 65536
      = .error .packError := by decide

/-- Witness for C4 at the unsigned 32-bit boundary value. -/
theorem C4_scalar_set_get_witness :
    ∃ b', SCBlock.setValue ⟨0, .UINT32, [9, 9, 9, 9], .NONE⟩ 4294967295
        = .ok b'
      ∧ b'.getValue = .ok 4294967295 ∧ b'.key = 0 ∧ b'.type = .UINT32 :=
  (C4_scalar_set_get .UINT32 0 [9, 9, 9, 9] 4294967295
    (by tauto) (by decide)).1
    (by norm_num [inRangeOf, SCTypeCode.getTypeSize])


/-- C10: whenever decoding one block from offset 0 succeeds with an end
offset, the standalone length computation `get_total_length` (reading
the key from the first four bytes) returns exactly that end offset, for
every block variant. -/
theorem C10_get_total_length (data : List Nat) (b : SCBlock) (n : Nat)
    (h : readFromOffset data 0 = .ok (b, n)) :
    getTotalLength data = some n := by
  unfold readFromOffset at h
  split at h
  · exact Except.noConfusion h
  rename_i hk
  simp only [readWithKey, Nat.reduceAdd, Nat.zero_add] at h
  repeat' split at h
  all_goals first
  | exact Except.noConfusion h
  | (simp only [Except.ok.injEq, Prod.mk.injEq] at h
     obtain ⟨hb2, hn⟩ := h
     subst hn
     simp only [getTotalLength]
     repeat' split
     all_goals (try subst_eqs)
     all_goals (try casesm* _ ∨ _)
     all_goals simp_all
     all_goals (try omega)
     all_goals (rw [Nat.mul_comm]))

/-- Witness for C10 on a concrete encoded array block of six payload
bytes: decode ends at offset 16 and `get_total_length` answers 16. -/
theorem C10_get_total_length_witness :
    readFromOffset
        [254, 202, 0, 0, 30, 22, 56, 247, 199, 255, 7, 33, 212, 157, 242, 199]
        0
      = .ok (⟨51966, .ARRAY, [7, 8, 9, 10, 11, 12], .UINT16⟩, 16)
    ∧ getTotalLength
        [254, 202, 0, 0, 30, 22, 56, 247, 199, 255, 7, 33, 212, 157, 242, 199]
      = some 16 :=
  ⟨by decide,
   C10_get_total_length _ ⟨51966, .ARRAY, [7, 8, 9, 10, 11, 12], .UINT16⟩ 16
     (by decide)⟩


theorem getTypeSize_some_cases {t : SCTypeCode} {sz : Nat}
    (h : t.getTypeSize = some sz) :
    t = .BOOL3 ∨ t = .BYTE ∨ t = .UINT16 ∨ t = .UINT32 ∨ t = .UINT64
      ∨ t = .SBYTE ∨ t = .INT16 ∨ t = .INT32 ∨ t = .INT64
      ∨ t = .SINGLE ∨ t = .DOUBLE := by
  cases t <;> simp_all [SCTypeCode.getTypeSize]

theorem readFromOffset_array_subtag (data : List Nat) (b : SCBlock) (n : Nat)
    (h : readFromOffset data 0 = .ok (b, n)) (ha : b.type = .ARRAY) :
    b.subType = .BOOL3 ∨ b.subType = .BYTE ∨ b.subType = .UINT16
      ∨ b.subType = .UINT32 ∨ b.subType = .UINT64 ∨ b.subType = .SBYTE
      ∨ b.subType = .INT16 ∨ b.subType = .INT32 ∨ b.subType = .INT64
      ∨ b.subType = .SINGLE ∨ b.subType = .DOUBLE := by
  unfold readFromOffset at h
  split at h
  · exact Except.noConfusion h
  simp only [readWithKey] at h
  repeat' split at h
  all_goals first
  | exact Except.noConfusion h
  | (simp only [Except.ok.injEq, Prod.mk.injEq] at h
     obtain ⟨hb2, hn⟩ := h
     subst hb2
     first
     | (exact getTypeSize_some_cases (by assumption))
     | simp_all)

theorem mkArrayRaw_bad_subtag (key count subVal : Nat) (payload : List Nat)
    (hkey : key < 4294967296) (hcount : count < 4294967296) :
    (SCTypeCode.ofVal subVal = none →
      readFromOffset (mkArrayRaw key count subVal payload) 0
        = .error (.unknownTypeCode subVal))
    ∧ (∀ st, SCTypeCode.ofVal subVal = some st → st.getTypeSize = none →
      readFromOffset (mkArrayRaw key count subVal payload) 0
        = .error (.unsupportedType st)) := by
  have hx : count ^^^ (SCXorShift32.ofSeed key).next.2.next32.1
      < 4294967296 :=
    Nat.xor_lt_two_pow (n := 32) hcount
      (next32_fst_lt (SCXorShift32.ofSeed key).next.2)
  have hlen : (mkArrayRaw key count subVal payload).length
      = 10 + payload.length := by
    simp [mkArrayRaw, u32ToBytesLE]
    omega
  have hkeyrd : readU32LE (mkArrayRaw key count subVal payload) 0 = key := by
    simp only [mkArrayRaw, u32ToBytesLE, List.cons_append, List.nil_append,
      readU32LE, List.getD_cons_succ, List.getD_cons_zero]
    omega
  have hgd4 : (mkArrayRaw key count subVal payload).getD 4 0
      = SCTypeCode.ARRAY.val ^^^ (SCXorShift32.ofSeed key).next.1 := by
    simp only [mkArrayRaw, u32ToBytesLE, List.cons_append, List.nil_append,
      List.getD_cons_succ, List.getD_cons_zero]
  have hgd9 : (mkArrayRaw key count subVal payload).getD 9 0
      = subVal ^^^ (SCXorShift32.ofSeed key).next.2.next32.2.next.1 := by
    simp only [mkArrayRaw, u32ToBytesLE, List.cons_append, List.nil_append,
      List.getD_cons_succ, List.getD_cons_zero]
  have hword : readU32LE (mkArrayRaw key count subVal payload) 5
      = count ^^^ (SCXorShift32.ofSeed key).next.2.next32.1 := by
    simp only [mkArrayRaw, u32ToBytesLE, List.cons_append, List.nil_append,
      readU32LE, List.getD_cons_succ, List.getD_cons_zero]
    omega
  refine ⟨fun hnone => ?_, fun st hsome hsz => ?_⟩
  all_goals
    unfold readFromOffset
  all_goals
    rw [if_neg (by omega), hkeyrd]
  all_goals
    simp only [readWithKey]
  all_goals
    rw [if_neg (by omega), hgd4, Nat.xor_cancel_right, ofVal_val]
  all_goals
    simp only [reduceCtorEq, or_self, or_false, false_or, reduceIte,
      Nat.zero_add, Nat.reduceAdd]
  all_goals
    rw [if_neg (by omega), hword, Nat.xor_cancel_right,
      if_neg (by omega), hgd9, Nat.xor_cancel_right]
  · rw [hnone]
  · rw [hsome]
    simp only [hsz]

/-- C5: decoding a buffer that ends inside any field of a block — the
4-byte key, the type byte, the object length or array count word, the
array sub-type byte, or the payload — fails with the truncation error of
exactly that field.  Stated for every buffer on which the untruncated
decode succeeds with end offset `n` and every cut `m < n`; in particular
an array payload one byte short (`m = n - 1`) fails with the
array-payload truncation error, as the witness exercises. -/
theorem C5_truncation (data : List Nat) (m : Nat) (b : SCBlock) (n : Nat)
    (h : readFromOffset data 0 = .ok (b, n)) (hm : m < n) :
    readFromOffset (data.take m) 0 = .error (truncErrAt b.type m) := by
  have hb := readFromOffset_ok_bounds h
  have hmlen : m < data.length := by omega
  have hlt : (data.take m).length = m := by
    rw [List.length_take]
    omega
  by_cases hm4 : m < 4
  · unfold readFromOffset
    rw [if_pos (by omega)]
    unfold truncErrAt
    rw [if_pos hm4]
  have hkeyeq : readU32LE (data.take m) 0 = readU32LE data 0 := by
    unfold readU32LE
    rw [getD_take _ _ _ (by omega), getD_take _ _ _ (by omega),
      getD_take _ _ _ (by omega), getD_take _ _ _ (by omega)]
  by_cases hm5 : m < 5
  · unfold readFromOffset
    rw [if_neg (by omega), hkeyeq]
    simp only [readWithKey]
    rw [if_pos (by omega)]
    unfold truncErrAt
    rw [if_neg hm4, if_pos hm5]
  -- m ≥ 5, hence n ≥ 6 and the full decode passed the type byte
  unfold readFromOffset at h
  rw [if_neg (by omega)] at h
  simp only [readWithKey, Nat.zero_add, Nat.reduceAdd] at h
  rw [if_neg (by omega)] at h
  unfold readFromOffset
  rw [if_neg (by omega), hkeyeq]
  simp only [readWithKey, Nat.zero_add, Nat.reduceAdd]
  rw [if_neg (by omega), getD_take _ _ _ (by omega)]
  rcases hof : SCTypeCode.ofVal (data.getD 4 0
      ^^^ (SCXorShift32.ofSeed (readU32LE data 0)).next.1) with _ | bt
  · rw [hof] at h
    exact absurd h (by simp)
  rw [hof] at h
  simp only [] at h ⊢
  by_cases hbool : bt = .BOOL1 ∨ bt = .BOOL2 ∨ bt = .BOOL3
  · rw [if_pos hbool] at h
    simp only [Except.ok.injEq, Prod.mk.injEq] at h
    omega
  rw [if_neg hbool] at h ⊢
  by_cases hobj : bt = .OBJECT
  · rw [if_pos hobj] at h ⊢
    split at h
    · exact Except.noConfusion h
    rename_i hlen9
    split at h
    · exact Except.noConfusion h
    rename_i hpay
    simp only [Except.ok.injEq, Prod.mk.injEq] at h
    obtain ⟨hb2, hn2⟩ := h
    subst hb2
    simp only []
    by_cases hm9 : m < 9
    · rw [if_pos (by omega)]
      unfold truncErrAt
      rw [if_neg hm4, if_neg (by omega), if_pos hobj, if_pos hm9]
    · have hw : readU32LE (data.take m) 5 = readU32LE data 5 := by
        unfold readU32LE
        rw [getD_take _ _ _ (by omega), getD_take _ _ _ (by omega),
          getD_take _ _ _ (by omega), getD_take _ _ _ (by omega)]
      rw [if_neg (by omega), hw, if_pos (by omega)]
      unfold truncErrAt
      rw [if_neg hm4, if_neg (by omega), if_pos hobj, if_neg hm9]
  rw [if_neg hobj] at h ⊢
  by_cases harr : bt = .ARRAY
  · rw [if_pos harr] at h ⊢
    split at h
    · exact Except.noConfusion h
    rename_i hlen9
    split at h
    · exact Except.noConfusion h
    rename_i hlen10
    rcases hsub : SCTypeCode.ofVal (data.getD 9 0
        ^^^ (SCXorShift32.ofSeed
          (readU32LE data 0)).next.2.next32.2.next.1) with _ | st
    · rw [hsub] at h
      exact absurd h (by simp)
    rw [hsub] at h
    simp only [] at h
    rcases hts : st.getTypeSize with _ | sz
    · rw [hts] at h
      exact absurd h (by simp)
    rw [hts] at h
    simp only [] at h
    split at h
    · exact Except.noConfusion h
    rename_i hpay
    simp only [Except.ok.injEq, Prod.mk.injEq] at h
    obtain ⟨hb2, hn2⟩ := h
    subst hb2
    simp only []
    by_cases hm9 : m < 9
    · rw [if_pos (by omega)]
      unfold truncErrAt
      rw [if_neg hm4, if_neg (by omega), if_neg (by decide), if_pos rfl,
        if_pos hm9]
    by_cases hm10 : m < 10
    · have hw : readU32LE (data.take m) 5 = readU32LE data 5 := by
        unfold readU32LE
        rw [getD_take _ _ _ (by omega), getD_take _ _ _ (by omega),
          getD_take _ _ _ (by omega), getD_take _ _ _ (by omega)]
      rw [if_neg (by omega), hw, if_pos (by omega)]
      unfold truncErrAt
      rw [if_neg hm4, if_neg (by omega), if_neg (by decide), if_pos rfl,
        if_neg hm9, if_pos hm10]
    · have hw : readU32LE (data.take m) 5 = readU32LE data 5 := by
        unfold readU32LE
        rw [getD_take _ _ _ (by omega), getD_take _ _ _ (by omega),
          getD_take _ _ _ (by omega), getD_take _ _ _ (by omega)]
      rw [if_neg (by omega), hw, if_neg (by omega),
        getD_take _ _ _ (by omega), hsub]
      simp only [hts]
      rw [if_pos (by omega)]
      unfold truncErrAt
      rw [if_neg hm4, if_neg (by omega), if_neg (by decide), if_pos rfl,
        if_neg hm9, if_neg hm10]
  rw [if_neg harr] at h ⊢
  rcases hts : bt.getTypeSize with _ | sz
  · rw [hts] at h
    exact absurd h (by simp)
  rw [hts] at h
  simp only [] at h ⊢
  split at h
  · exact Except.noConfusion h
  rename_i hpay
  simp only [Except.ok.injEq, Prod.mk.injEq] at h
  obtain ⟨hb2, hn2⟩ := h
  subst hb2
  simp only []
  rw [if_pos (by omega)]
  unfold truncErrAt
  rw [if_neg hm4, if_neg (by omega), if_neg hobj, if_neg harr]

/-- Witness for C5: the 16-byte encoded array block cut one byte short
fails with the array-payload truncation error. -/
theorem C5_truncation_witness :
    readFromOffset
        ([254, 202, 0, 0, 30, 22, 56, 247, 199, 255, 7, 33, 212, 157, 242,
          199].take 15) 0
      = .error (truncErrAt .ARRAY 15)
    ∧ truncErrAt .ARRAY 15 = .truncArrPayload :=
  ⟨C5_truncation
      [254, 202, 0, 0, 30, 22, 56, 247, 199, 255, 7, 33, 212, 157, 242, 199]
      15 ⟨51966, .ARRAY, [7, 8, 9, 10, 11, 12], .UINT16⟩ 16
      (by decide) (by decide),
   by decide⟩

/-- C6: a decoded array block carries a sub-tag that is the tri-state
boolean or one of the ten scalar tags (first conjunct); and a decrypted
sub-tag naming a container type or any other tag makes the block decode
fail — `NONE`, the two concrete booleans, `OBJECT` and `ARRAY` hit the
element-size error, and an undefined tag value hits the unknown-tag
error — rather than proceed with a warning (second and third
conjuncts, on an arbitrary encoded array block). -/
theorem C6_array_subtag_rejected (data : List Nat) (b : SCBlock) (n : Nat)
    (key count subVal : Nat) (payload : List Nat)
    (hkey : key < 4294967296) (hcount : count < 4294967296) :
    (readFromOffset data 0 = .ok (b, n) → b.type = .ARRAY →
      b.subType = .BOOL3 ∨ b.subType = .BYTE ∨ b.subType = .UINT16
        ∨ b.subType = .UINT32 ∨ b.subType = .UINT64 ∨ b.subType = .SBYTE
        ∨ b.subType = .INT16 ∨ b.subType = .INT32 ∨ b.subType = .INT64
        ∨ b.subType = .SINGLE ∨ b.subType = .DOUBLE)
    ∧ (SCTypeCode.ofVal subVal = none →
      readFromOffset (mkArrayRaw key count subVal payload) 0
        = .error (.unknownTypeCode subVal))
    ∧ (∀ st, SCTypeCode.ofVal subVal = some st → st.getTypeSize = none →
      readFromOffset (mkArrayRaw key count subVal payload) 0
        = .error (.unsupportedType st)) :=
  ⟨fun h ha => readFromOffset_array_subtag data b n h ha,
   (mkArrayRaw_bad_subtag key count subVal payload hkey hcount).1,
   (mkArrayRaw_bad_subtag key count subVal payload hkey hcount).2⟩

/-- Witness for C6: an encoded array block whose decrypted sub-tag is
the container tag `OBJECT` fails to decode with the unsupported-type
error. -/
theorem C6_array_subtag_rejected_witness :
    readFromOffset (mkArrayRaw 7 0 4 []) 0
      = .error (.unsupportedType .OBJECT) :=
  (C6_array_subtag_rejected [] ⟨0, .NONE, [], .NONE⟩ 0 7 0 4 []
    (by decide) (by decide)).2.2 .OBJECT (by decide) (by decide)

theorem getD_shift (pre buf : List Nat) (i : Nat) :
    (pre ++ buf).getD (pre.length + i) 0 = buf.getD i 0 := by
  rw [List.getD_append_right _ _ _ _ (by omega), Nat.add_sub_cancel_left]

theorem drop_shift (pre buf : List Nat) (i : Nat) :
    (pre ++ buf).drop (pre.length + i) = buf.drop i := by
  induction pre with
  | nil => simp
  | cons a pre ih => simpa [Nat.succ_add] using ih

theorem readU32LE_shift (pre buf : List Nat) (i : Nat) :
    readU32LE (pre ++ buf) (pre.length + i) = readU32LE buf i := by
  unfold readU32LE
  rw [show pre.length + i + 1 = pre.length + (i + 1) from by omega,
      show pre.length + i + 2 = pre.length + (i + 2) from by omega,
      show pre.length + i + 3 = pre.length + (i + 3) from by omega,
      getD_shift, getD_shift, getD_shift, getD_shift]

theorem slice_shift (pre buf : List Nat) (i n : Nat) :
    slice (pre ++ buf) (pre.length + i) n = slice buf i n := by
  unfold slice
  rw [drop_shift]

theorem readWithKey_shift (pre : List Nat) {buf : List Nat} {key off : Nat}
    {b : SCBlock} {off2 : Nat}
    (h : readWithKey buf key off = .ok (b, off2)) :
    readWithKey (pre ++ buf) key (pre.length + off)
      = .ok (b, pre.length + off2) := by
  have hlen : (pre ++ buf).length = pre.length + buf.length :=
    List.length_append _ _
  simp only [readWithKey] at h ⊢
  by_cases h0 : buf.length ≤ off
  · rw [if_pos h0] at h
    exact Except.noConfusion h
  rw [if_neg h0] at h
  rw [if_neg (by omega)]
  rcases hov : SCTypeCode.ofVal
      (buf.getD off 0 ^^^ (SCXorShift32.ofSeed key).next.1) with _ | bt
  · rw [hov] at h
    exact Except.noConfusion h
  rw [hov] at h
  simp only [] at h
  rw [getD_shift, hov]
  simp only []
  by_cases hb3 : bt = .BOOL1 ∨ bt = .BOOL2 ∨ bt = .BOOL3
  · rw [if_pos hb3] at h ⊢
    simp only [Except.ok.injEq, Prod.mk.injEq] at h ⊢
    obtain ⟨h1, h2⟩ := h
    exact ⟨h1, by omega⟩
  rw [if_neg hb3] at h ⊢
  by_cases hobj : bt = .OBJECT
  · rw [if_pos hobj] at h ⊢
    by_cases h5 : buf.length < off + 5
    · rw [if_pos h5] at h
      exact Except.noConfusion h
    rw [if_neg h5] at h
    rw [if_neg (by omega)]
    rw [show pre.length + off + 1 = pre.length + (off + 1) from by omega,
        readU32LE_shift]
    by_cases hpay : buf.length < off + 5
        + (readU32LE buf (off + 1)
            ^^^ (SCXorShift32.ofSeed key).next.2.next32.1)
    · rw [if_pos hpay] at h
      exact Except.noConfusion h
    rw [if_neg hpay] at h
    rw [if_neg (by omega)]
    rw [show pre.length + off + 5 = pre.length + (off + 5) from by omega,
        slice_shift]
    simp only [Except.ok.injEq, Prod.mk.injEq] at h ⊢
    obtain ⟨h1, h2⟩ := h
    exact ⟨h1, by omega⟩
  rw [if_neg hobj] at h ⊢
  by_cases harr : bt = .ARRAY
  · rw [if_pos harr] at h ⊢
    by_cases h5 : buf.length < off + 5
    · rw [if_pos h5] at h
      exact Except.noConfusion h
    rw [if_neg h5] at h
    rw [if_neg (by omega)]
    by_cases h6 : buf.length ≤ off + 5
    · rw [if_pos h6] at h
      exact Except.noConfusion h
    rw [if_neg h6] at h
    rw [if_neg (by omega)]
    rcases hst : SCTypeCode.ofVal (buf.getD (off + 5) 0
        ^^^ (SCXorShift32.ofSeed key).next.2.next32.2.next.1) with _ | st
    · rw [hst] at h
      exact Except.noConfusion h
    rw [hst] at h
    simp only [] at h
    rw [show pre.length + off + 5 = pre.length + (off + 5) from by omega,
        getD_shift, hst]
    simp only []
    rcases hts : st.getTypeSize with _ | sz
    · rw [hts] at h
      exact Except.noConfusion h
    rw [hts] at h
    simp only [] at h
    simp only []
    rw [show pre.length + off + 1 = pre.length + (off + 1) from by omega,
        readU32LE_shift]
    by_cases hpay : buf.length < off + 6
        + (readU32LE buf (off + 1)
            ^^^ (SCXorShift32.ofSeed key).next.2.next32.1) * sz
    · rw [if_pos hpay] at h
      exact Except.noConfusion h
    rw [if_neg hpay] at h
    rw [if_neg (by omega)]
    rw [show pre.length + off + 6 = pre.length + (off + 6) from by omega,
        slice_shift]
    simp only [Except.ok.injEq, Prod.mk.injEq] at h ⊢
    obtain ⟨h1, h2⟩ := h
    exact ⟨h1, by omega⟩
  rw [if_neg harr] at h ⊢
  rcases hts : bt.getTypeSize with _ | sz
  · rw [hts] at h
    exact Except.noConfusion h
  rw [hts] at h
  simp only [] at h
  simp only []
  by_cases hval : buf.length < off + 1 + sz
  · rw [if_pos hval] at h
    exact Except.noConfusion h
  rw [if_neg hval] at h
  rw [if_neg (by omega)]
  rw [show pre.length + off + 1 = pre.length + (off + 1) from by omega,
      slice_shift]
  simp only [Except.ok.injEq, Prod.mk.injEq] at h ⊢
  obtain ⟨h1, h2⟩ := h
  exact ⟨h1, by omega⟩

theorem readFromOffset_shift (pre : List Nat) {buf : List Nat}
    {b : SCBlock} {off2 : Nat}
    (h : readFromOffset buf 0 = .ok (b, off2)) :
    readFromOffset (pre ++ buf) pre.length = .ok (b, pre.length + off2) := by
  have hlen : (pre ++ buf).length = pre.length + buf.length :=
    List.length_append _ _
  unfold readFromOffset at h ⊢
  by_cases h4 : buf.length < 0 + 4
  · rw [if_pos h4] at h
    exact Except.noConfusion h
  rw [if_neg h4] at h
  rw [if_neg (by omega)]
  have hrd0 : readU32LE (pre ++ buf) pre.length = readU32LE buf 0 := by
    have := readU32LE_shift pre buf 0
    simpa using this
  rw [hrd0]
  simp only [Nat.zero_add] at h
  exact readWithKey_shift pre h

theorem scalar_val_branches {t : SCTypeCode} (h : SCTypeCode.ARRAY.val < t.val) :
    ¬(t = .BOOL1 ∨ t = .BOOL2 ∨ t = .BOOL3) ∧ t ≠ .OBJECT ∧ t ≠ .ARRAY := by
  cases t <;> simp_all [SCTypeCode.val]

theorem read_write_object (key : Nat) (raw rest : List Nat)
    (hkey : key < 4294967296) (hraw : raw.length < 4294967296) :
    readFromOffset
      (u32ToBytesLE key
        ++ (SCTypeCode.OBJECT.val ^^^ (SCXorShift32.ofSeed key).next.1)
          :: (u32ToBytesLE (raw.length
                ^^^ (SCXorShift32.ofSeed key).next.2.next32.1)
              ++ ((cryptBytes (SCXorShift32.ofSeed key).next.2.next32.2 raw).1
                  ++ rest))) 0
      = .ok (⟨key, .OBJECT, raw, .NONE⟩, 9 + raw.length) := by
  set xk0 := SCXorShift32.ofSeed key with hxk0
  set w := xk0.next.2.next32.1 with hwdef
  set enc := (cryptBytes xk0.next.2.next32.2 raw).1 with hencdef
  have hxw : raw.length ^^^ w < 4294967296 :=
    Nat.xor_lt_two_pow (n := 32) hraw (next32_fst_lt xk0.next.2)
  have henclen : enc.length = raw.length := cryptBytes_fst_length _ _
  have hlen : (u32ToBytesLE key
      ++ (SCTypeCode.OBJECT.val ^^^ xk0.next.1)
        :: (u32ToBytesLE (raw.length ^^^ w) ++ (enc ++ rest))).length
      = 9 + raw.length + rest.length := by
    simp [u32ToBytesLE, henclen]
    omega
  unfold readFromOffset
  rw [if_neg (by omega)]
  have hkeyrd : readU32LE (u32ToBytesLE key
      ++ (SCTypeCode.OBJECT.val ^^^ xk0.next.1)
        :: (u32ToBytesLE (raw.length ^^^ w) ++ (enc ++ rest))) 0 = key := by
    simp only [u32ToBytesLE, List.cons_append, List.nil_append, readU32LE,
      List.getD_cons_succ, List.getD_cons_zero]
    omega
  rw [hkeyrd]
  simp only [readWithKey, Nat.zero_add, Nat.reduceAdd]
  rw [if_neg (by omega)]
  have hgd4 : (u32ToBytesLE key
      ++ (SCTypeCode.OBJECT.val ^^^ xk0.next.1)
        :: (u32ToBytesLE (raw.length ^^^ w) ++ (enc ++ rest))).getD 4 0
      = SCTypeCode.OBJECT.val ^^^ xk0.next.1 := by
    simp only [u32ToBytesLE, List.cons_append, List.nil_append,
      List.getD_cons_succ, List.getD_cons_zero]
  rw [hgd4, Nat.xor_cancel_right, ofVal_val]
  simp only [reduceCtorEq, or_self, or_false, false_or, reduceIte,
    Nat.zero_add, Nat.reduceAdd]
  rw [if_neg (by omega)]
  have hword : readU32LE (u32ToBytesLE key
      ++ (SCTypeCode.OBJECT.val ^^^ xk0.next.1)
        :: (u32ToBytesLE (raw.length ^^^ w) ++ (enc ++ rest))) 5
      = raw.length ^^^ w := by
    simp only [u32ToBytesLE, List.cons_append, List.nil_append, readU32LE,
      List.getD_cons_succ, List.getD_cons_zero]
    omega
  rw [hword, Nat.xor_cancel_right]
  rw [if_neg (by omega)]
  have hslice : slice (u32ToBytesLE key
      ++ (SCTypeCode.OBJECT.val ^^^ xk0.next.1)
        :: (u32ToBytesLE (raw.length ^^^ w) ++ (enc ++ rest))) 9 raw.length
      = enc := by
    unfold slice
    simp only [u32ToBytesLE, List.cons_append, List.nil_append,
      List.drop_succ_cons, List.drop_zero]
    rw [← henclen, List.take_left' rfl]
  rw [hslice, hencdef, cryptBytes_involutive]

theorem read_write_bool (key : Nat) (bt : SCTypeCode) (rest : List Nat)
    (hkey : key < 4294967296)
    (hb : bt = .BOOL1 ∨ bt = .BOOL2 ∨ bt = .BOOL3) :
    readFromOffset
      (u32ToBytesLE key
        ++ (bt.val ^^^ (SCXorShift32.ofSeed key).next.1) :: rest) 0
      = .ok (⟨key, bt, [], .NONE⟩, 5) := by
  have hlen : (u32ToBytesLE key
      ++ (bt.val ^^^ (SCXorShift32.ofSeed key).next.1) :: rest).length
      = 5 + rest.length := by
    simp [u32ToBytesLE]
    omega
  unfold readFromOffset
  rw [if_neg (by omega)]
  have hkeyrd : readU32LE (u32ToBytesLE key
      ++ (bt.val ^^^ (SCXorShift32.ofSeed key).next.1) :: rest) 0 = key := by
    simp only [u32ToBytesLE, List.cons_append, List.nil_append, readU32LE,
      List.getD_cons_succ, List.getD_cons_zero]
    omega
  rw [hkeyrd]
  simp only [readWithKey, Nat.zero_add, Nat.reduceAdd]
  rw [if_neg (by omega)]
  have hgd4 : (u32ToBytesLE key
      ++ (bt.val ^^^ (SCXorShift32.ofSeed key).next.1) :: rest).getD 4 0
      = bt.val ^^^ (SCXorShift32.ofSeed key).next.1 := by
    simp only [u32ToBytesLE, List.cons_append, List.nil_append,
      List.getD_cons_succ, List.getD_cons_zero]
  rw [hgd4, Nat.xor_cancel_right, ofVal_val]
  simp only []
  rw [if_pos hb]

theorem read_write_array (key : Nat) (st : SCTypeCode) (sz : Nat)
    (raw rest : List Nat) (hkey : key < 4294967296)
    (hsz : st.getTypeSize = some sz) (hdvd : sz ∣ raw.length)
    (hraw : raw.length < 4294967296) :
    readFromOffset
      (u32ToBytesLE key
        ++ (SCTypeCode.ARRAY.val ^^^ (SCXorShift32.ofSeed key).next.1)
          :: (u32ToBytesLE ((raw.length / sz)
                ^^^ (SCXorShift32.ofSeed key).next.2.next32.1)
              ++ (st.val ^^^ (SCXorShift32.ofSeed key).next.2.next32.2.next.1)
                :: ((cryptBytes
                    (SCXorShift32.ofSeed key).next.2.next32.2.next.2 raw).1
                  ++ rest))) 0
      = .ok (⟨key, .ARRAY, raw, st⟩, 10 + raw.length) := by
  set xk0 := SCXorShift32.ofSeed key with hxk0
  set w := xk0.next.2.next32.1 with hwdef
  set k1 := xk0.next.2.next32.2.next.1 with hk1def
  set enc := (cryptBytes xk0.next.2.next32.2.next.2 raw).1 with hencdef
  have henclen : enc.length = raw.length := cryptBytes_fst_length _ _
  have hxw : raw.length / sz ^^^ w < 4294967296 := by
    refine Nat.xor_lt_two_pow (n := 32) ?_ (next32_fst_lt xk0.next.2)
    have : raw.length / sz ≤ raw.length := Nat.div_le_self _ _
    omega
  have hmul : raw.length / sz * sz = raw.length := Nat.div_mul_cancel hdvd
  have hlen : (u32ToBytesLE key
      ++ (SCTypeCode.ARRAY.val ^^^ xk0.next.1)
        :: (u32ToBytesLE (raw.length / sz ^^^ w)
            ++ (st.val ^^^ k1) :: (enc ++ rest))).length
      = 10 + raw.length + rest.length := by
    simp [u32ToBytesLE, henclen]
    omega
  unfold readFromOffset
  rw [if_neg (by omega)]
  have hkeyrd : readU32LE (u32ToBytesLE key
      ++ (SCTypeCode.ARRAY.val ^^^ xk0.next.1)
        :: (u32ToBytesLE (raw.length / sz ^^^ w)
            ++ (st.val ^^^ k1) :: (enc ++ rest))) 0 = key := by
    simp only [u32ToBytesLE, List.cons_append, List.nil_append, readU32LE,
      List.getD_cons_succ, List.getD_cons_zero]
    omega
  rw [hkeyrd]
  simp only [readWithKey, Nat.zero_add, Nat.reduceAdd]
  rw [if_neg (by omega)]
  have hgd4 : (u32ToBytesLE key
      ++ (SCTypeCode.ARRAY.val ^^^ xk0.next.1)
        :: (u32ToBytesLE (raw.length / sz ^^^ w)
            ++ (st.val ^^^ k1) :: (enc ++ rest))).getD 4 0
      = SCTypeCode.ARRAY.val ^^^ xk0.next.1 := by
    simp only [u32ToBytesLE, List.cons_append, List.nil_append,
      List.getD_cons_succ, List.getD_cons_zero]
  rw [hgd4, Nat.xor_cancel_right, ofVal_val]
  simp only [reduceCtorEq, or_self, or_false, false_or, reduceIte,
    Nat.zero_add, Nat.reduceAdd]
  rw [if_neg (by omega)]
  have hword : readU32LE (u32ToBytesLE key
      ++ (SCTypeCode.ARRAY.val ^^^ xk0.next.1)
        :: (u32ToBytesLE (raw.length / sz ^^^ w)
            ++ (st.val ^^^ k1) :: (enc ++ rest))) 5
      = raw.length / sz ^^^ w := by
    simp only [u32ToBytesLE, List.cons_append, List.nil_append, readU32LE,
      List.getD_cons_succ, List.getD_cons_zero]
    omega
  rw [hword, Nat.xor_cancel_right, if_neg (by omega)]
  have hgd9 : (u32ToBytesLE key
      ++ (SCTypeCode.ARRAY.val ^^^ xk0.next.1)
        :: (u32ToBytesLE (raw.length / sz ^^^ w)
            ++ (st.val ^^^ k1) :: (enc ++ rest))).getD 9 0
      = st.val ^^^ k1 := by
    simp only [u32ToBytesLE, List.cons_append, List.nil_append,
      List.getD_cons_succ, List.getD_cons_zero]
  rw [hgd9, Nat.xor_cancel_right, ofVal_val]
  simp only [hsz]
  rw [hmul, if_neg (by omega)]
  have hslice : slice (u32ToBytesLE key
      ++ (SCTypeCode.ARRAY.val ^^^ xk0.next.1)
        :: (u32ToBytesLE (raw.length / sz ^^^ w)
            ++ (st.val ^^^ k1) :: (enc ++ rest))) 10 raw.length = enc := by
    unfold slice
    simp only [u32ToBytesLE, List.cons_append, List.nil_append,
      List.drop_succ_cons, List.drop_zero]
    rw [← henclen, List.take_left' rfl]
  rw [hslice, hencdef, cryptBytes_involutive]

theorem read_write_scalar (key : Nat) (t : SCTypeCode) (sz : Nat)
    (raw rest : List Nat) (hkey : key < 4294967296)
    (hval : SCTypeCode.ARRAY.val < t.val) (hsz : t.getTypeSize = some sz)
    (hlenr : raw.length = sz) :
    readFromOffset
      (u32ToBytesLE key
        ++ (t.val ^^^ (SCXorShift32.ofSeed key).next.1)
          :: ((cryptBytes (SCXorShift32.ofSeed key).next.2 raw).1 ++ rest)) 0
      = .ok (⟨key, t, raw, .NONE⟩, 5 + sz) := by
  obtain ⟨hnb, hno, hna⟩ := scalar_val_branches hval
  set xk0 := SCXorShift32.ofSeed key with hxk0
  set enc := (cryptBytes xk0.next.2 raw).1 with hencdef
  have henclen : enc.length = raw.length := cryptBytes_fst_length _ _
  have hlen : (u32ToBytesLE key
      ++ (t.val ^^^ xk0.next.1) :: (enc ++ rest)).length
      = 5 + sz + rest.length := by
    simp [u32ToBytesLE, henclen]
    omega
  unfold readFromOffset
  rw [if_neg (by omega)]
  have hkeyrd : readU32LE (u32ToBytesLE key
      ++ (t.val ^^^ xk0.next.1) :: (enc ++ rest)) 0 = key := by
    simp only [u32ToBytesLE, List.cons_append, List.nil_append, readU32LE,
      List.getD_cons_succ, List.getD_cons_zero]
    omega
  rw [hkeyrd]
  simp only [readWithKey, Nat.zero_add, Nat.reduceAdd]
  rw [if_neg (by omega)]
  have hgd4 : (u32ToBytesLE key
      ++ (t.val ^^^ xk0.next.1) :: (enc ++ rest)).getD 4 0
      = t.val ^^^ xk0.next.1 := by
    simp only [u32ToBytesLE, List.cons_append, List.nil_append,
      List.getD_cons_succ, List.getD_cons_zero]
  rw [hgd4, Nat.xor_cancel_right, ofVal_val]
  simp only []
  rw [if_neg hnb, if_neg hno, if_neg hna]
  simp only [hsz]
  rw [if_neg (by omega)]
  have hslice : slice (u32ToBytesLE key
      ++ (t.val ^^^ xk0.next.1) :: (enc ++ rest)) 5 sz = enc := by
    unfold slice
    simp only [u32ToBytesLE, List.cons_append, List.nil_append,
      List.drop_succ_cons, List.drop_zero]
    rw [← hlenr, ← henclen, List.take_left' rfl]
  rw [hslice, hencdef, cryptBytes_involutive]

theorem readFromOffset_writeBlock (b : SCBlock) (wb rest : List Nat)
    (hleg : legalBlock b = true) (hw : writeBlock b = some wb) :
    readFromOffset (wb ++ rest) 0 = .ok (b, wb.length) := by
  obtain ⟨key, t, raw, st⟩ := b
  simp only [legalBlock, legalBlockClaim, Bool.and_eq_true,
    decide_eq_true_eq, List.all_eq_true, Bool.or_eq_true, beq_iff_eq] at hleg
  obtain ⟨⟨⟨hkey, hb256⟩, hshape⟩, hsub⟩ := hleg
  have hb256' : ∀ x ∈ raw, x < 256 := fun x hx => hb256 x hx
  unfold writeBlock at hw
  rw [if_pos ⟨hkey, hb256'⟩] at hw
  cases t
  case NONE => simp [SCTypeCode.getTypeSize] at hshape
  case BOOL1 =>
    simp only [reduceCtorEq, reduceIte, Option.some.injEq] at hw
    simp only [List.isEmpty_iff] at hshape
    subst hshape
    have hst : st = .NONE := by
      rcases hsub with h | h
      · exact absurd h (by simp)
      · exact h
    subst hst
    have hlen : wb.length = 5 := by
      rw [← hw]
      simp [u32ToBytesLE, cryptBytes]
    rw [hlen, ← hw]
    simp only [cryptBytes, List.cons_append, List.append_assoc,
      List.nil_append, List.append_nil, List.singleton_append]
    exact read_write_bool key .BOOL1 rest hkey (by tauto)
  case BOOL2 =>
    simp only [reduceCtorEq, reduceIte, Option.some.injEq] at hw
    simp only [List.isEmpty_iff] at hshape
    subst hshape
    have hst : st = .NONE := by
      rcases hsub with h | h
      · exact absurd h (by simp)
      · exact h
    subst hst
    have hlen : wb.length = 5 := by
      rw [← hw]
      simp [u32ToBytesLE, cryptBytes]
    rw [hlen, ← hw]
    simp only [cryptBytes, List.cons_append, List.append_assoc,
      List.nil_append, List.append_nil, List.singleton_append]
    exact read_write_bool key .BOOL2 rest hkey (by tauto)
  case BOOL3 =>
    simp only [reduceCtorEq, reduceIte, Option.some.injEq] at hw
    simp only [List.isEmpty_iff] at hshape
    subst hshape
    have hst : st = .NONE := by
      rcases hsub with h | h
      · exact absurd h (by simp)
      · exact h
    subst hst
    have hlen : wb.length = 5 := by
      rw [← hw]
      simp [u32ToBytesLE, cryptBytes]
    rw [hlen, ← hw]
    simp only [cryptBytes, List.cons_append, List.append_assoc,
      List.nil_append, List.append_nil, List.singleton_append]
    exact read_write_bool key .BOOL3 rest hkey (by tauto)
  case OBJECT =>
    simp only [reduceCtorEq, reduceIte] at hw
    simp only [decide_eq_true_eq] at hshape
    rw [if_pos (Nat.xor_lt_two_pow (n := 32) (by omega)
      (next32_fst_lt (SCXorShift32.ofSeed key).next.2))] at hw
    simp only [Option.some.injEq] at hw
    have hst : st = .NONE := by
      rcases hsub with h | h
      · exact absurd h (by simp)
      · exact h
    subst hst
    have hlen : wb.length = 9 + raw.length := by
      rw [← hw]
      simp [u32ToBytesLE, cryptBytes_fst_length]
      omega
    rw [hlen, ← hw]
    simp only [List.cons_append, List.append_assoc,
      List.nil_append, List.append_nil, List.singleton_append]
    exact read_write_object key raw rest hkey hshape
  case ARRAY =>
    simp only [reduceCtorEq, reduceIte] at hw
    rcases hts : st.getTypeSize with _ | sz
    · rw [hts] at hshape
      simp at hshape
    rw [hts] at hw hshape
    simp only [decide_eq_true_eq, Bool.and_eq_true] at hshape
    obtain ⟨hdvd, hraw⟩ := hshape
    simp only at hw
    rw [if_pos (Nat.xor_lt_two_pow (n := 32)
      (by have := Nat.div_le_self raw.length sz; omega)
      (next32_fst_lt (SCXorShift32.ofSeed key).next.2))] at hw
    simp only [Option.some.injEq] at hw
    have hlen : wb.length = 10 + raw.length := by
      rw [← hw]
      simp [u32ToBytesLE, cryptBytes_fst_length]
      omega
    rw [hlen, ← hw]
    simp only [List.cons_append, List.append_assoc,
      List.nil_append, List.append_nil, List.singleton_append]
    exact read_write_array key st sz raw rest hkey hts hdvd hraw
  all_goals (
    simp only [reduceCtorEq, reduceIte, Option.some.injEq] at hw
    (have hst : st = .NONE := by
      rcases hsub with h | h
      · exact absurd h (by simp)
      · exact h)
    subst hst
    simp only [SCTypeCode.getTypeSize, Option.some.injEq, beq_iff_eq]
      at hshape
    (have hlen : wb.length = 5 + raw.length := by
      rw [← hw]
      simp [u32ToBytesLE, cryptBytes_fst_length]
      omega)
    rw [hlen, ← hw]
    simp only [List.cons_append, List.append_assoc,
      List.nil_append, List.append_nil, List.singleton_append]
    exact read_write_scalar key _ raw.length raw rest hkey (by decide)
      (by simp [SCTypeCode.getTypeSize, hshape]) rfl)

theorem writeBlock_length_ge (b : SCBlock) (wb : List Nat)
    (hw : writeBlock b = some wb) : 5 ≤ wb.length := by
  simp only [writeBlock] at hw
  by_cases h1 : b.key < 4294967296 ∧ ∀ x ∈ b.raw, x < 256
  case neg =>
    rw [if_neg h1] at hw
    exact Option.noConfusion hw
  rw [if_pos h1] at hw
  by_cases ho : b.type = .OBJECT
  · rw [if_pos ho] at hw
    by_cases hx : b.raw.length ^^^ (SCXorShift32.ofSeed b.key).next.2.next32.1
        < 4294967296
    · rw [if_pos hx] at hw
      simp only [Option.some.injEq] at hw
      rw [← hw]
      simp [u32ToBytesLE]
    · rw [if_neg hx] at hw
      exact Option.noConfusion hw
  rw [if_neg ho] at hw
  by_cases ha : b.type = .ARRAY
  · rw [if_pos ha] at hw
    rcases hts : b.subType.getTypeSize with _ | sz
    · rw [hts] at hw
      exact Option.noConfusion hw
    rw [hts] at hw
    simp only [] at hw
    by_cases hx : b.raw.length / sz
        ^^^ (SCXorShift32.ofSeed b.key).next.2.next32.1 < 4294967296
    · rw [if_pos hx] at hw
      simp only [Option.some.injEq] at hw
      rw [← hw]
      simp [u32ToBytesLE]
    · rw [if_neg hx] at hw
      exact Option.noConfusion hw
  rw [if_neg ha] at hw
  simp only [Option.some.injEq] at hw
  rw [← hw]
  simp [u32ToBytesLE]

theorem readBlocksAux_flatten (blocks : List SCBlock) :
    ∀ (bss : List (List Nat)) (pre : List Nat) (fuel : Nat),
    (∀ b ∈ blocks, legalBlock b = true) →
    blocks.mapM writeBlock = some bss →
    blocks.length ≤ fuel →
    readBlocksAux (pre ++ bss.flatten) pre.length fuel = .ok blocks := by
  induction blocks with
  | nil =>
    intro bss pre fuel _ hmap _
    rw [← List.mapM'_eq_mapM] at hmap
    simp only [List.mapM', pure, Option.some.injEq] at hmap
    subst hmap
    unfold readBlocksAux
    rw [if_neg (by simp)]
  | cons b bs ih =>
    intro bss pre fuel hleg hmap hfuel
    rw [← List.mapM'_eq_mapM] at hmap
    simp only [List.mapM'] at hmap
    rcases hw : writeBlock b with _ | wb
    · rw [hw] at hmap
      simp at hmap
    rw [hw] at hmap
    rcases hm : List.mapM' writeBlock bs with _ | ws
    · rw [hm] at hmap
      simp at hmap
    rw [hm] at hmap
    simp only [Option.bind_eq_bind, Option.some_bind, pure,
      Option.some.injEq] at hmap
    subst hmap
    rcases fuel with _ | fuel
    · simp at hfuel
    have hone : readFromOffset (wb ++ ws.flatten) 0 = .ok (b, wb.length) :=
      readFromOffset_writeBlock b wb ws.flatten
        (hleg b (List.mem_cons_self b bs)) hw
    have hshift := readFromOffset_shift pre hone
    have hlen5 := writeBlock_length_ge b wb hw
    unfold readBlocksAux
    rw [if_pos (by simp [List.flatten_cons]; omega)]
    simp only [List.flatten_cons]
    rw [show pre ++ (wb ++ ws.flatten) = pre ++ wb ++ ws.flatten from
      (List.append_assoc pre wb ws.flatten).symm] at hshift ⊢
    rw [hshift]
    simp only []
    have hrec := ih ws (pre ++ wb) fuel
      (fun x hx => hleg x (List.mem_cons_of_mem b hx))
      (by rw [← List.mapM'_eq_mapM]; exact hm) (by simp at hfuel; omega)
    rw [List.length_append] at hrec
    rw [hrec]


theorem mapM_writeBlock_length (blocks : List SCBlock) :
    ∀ bss : List (List Nat), blocks.mapM writeBlock = some bss →
    blocks.length ≤ bss.flatten.length := by
  induction blocks with
  | nil =>
    intro bss _
    simp
  | cons b bs ih =>
    intro bss hmap
    rw [← List.mapM'_eq_mapM] at hmap
    simp only [List.mapM'] at hmap
    rcases hw : writeBlock b with _ | wb
    · rw [hw] at hmap
      simp at hmap
    rw [hw] at hmap
    rcases hm : List.mapM' writeBlock bs with _ | ws
    · rw [hm] at hmap
      simp at hmap
    rw [hm] at hmap
    simp only [Option.bind_eq_bind, Option.some_bind, pure,
      Option.some.injEq] at hmap
    subst hmap
    have h1 := writeBlock_length_ge b wb hw
    have h2 := ih ws (by rw [← List.mapM'_eq_mapM]; exact hm)
    simp only [List.flatten_cons, List.length_append, List.length_cons]
    omega

theorem readBlocks_flatten (blocks : List SCBlock) (bss : List (List Nat))
    (hleg : ∀ b ∈ blocks, legalBlock b = true)
    (hmap : blocks.mapM writeBlock = some bss) :
    readBlocks bss.flatten = .ok blocks := by
  have h := readBlocksAux_flatten blocks bss [] bss.flatten.length hleg hmap
    (mapM_writeBlock_length blocks bss hmap)
  simpa [readBlocks] using h

theorem writeBlock_legal_isSome (b : SCBlock) (hleg : legalBlock b = true) :
    (writeBlock b).isSome = true := by
  obtain ⟨key, t, raw, st⟩ := b
  simp only [legalBlock, legalBlockClaim, Bool.and_eq_true,
    decide_eq_true_eq, List.all_eq_true, Bool.or_eq_true, beq_iff_eq] at hleg
  obtain ⟨⟨⟨hkey, hb256⟩, hshape⟩, hsub⟩ := hleg
  have hb256' : ∀ x ∈ raw, x < 256 := fun x hx => hb256 x hx
  unfold writeBlock
  rw [if_pos ⟨hkey, hb256'⟩]
  cases t
  case NONE => simp [SCTypeCode.getTypeSize] at hshape
  case OBJECT =>
    simp only [decide_eq_true_eq] at hshape
    simp only [reduceCtorEq, reduceIte]
    rw [if_pos (Nat.xor_lt_two_pow (n := 32) (by omega)
      (next32_fst_lt (SCXorShift32.ofSeed key).next.2))]
    simp
  case ARRAY =>
    rcases hts : st.getTypeSize with _ | sz
    · rw [hts] at hshape
      simp at hshape
    rw [hts] at hshape
    simp only [decide_eq_true_eq, Bool.and_eq_true] at hshape
    obtain ⟨hdvd, hraw⟩ := hshape
    simp only [reduceCtorEq, reduceIte, hts]
    rw [if_pos (Nat.xor_lt_two_pow (n := 32)
      (by have := Nat.div_le_self raw.length sz; omega)
      (next32_fst_lt (SCXorShift32.ofSeed key).next.2))]
    simp
  all_goals simp

theorem mapM_writeBlock_legal_isSome (blocks : List SCBlock)
    (hleg : ∀ b ∈ blocks, legalBlock b = true) :
    ∃ bss, blocks.mapM writeBlock = some bss := by
  induction blocks with
  | nil => exact ⟨[], rfl⟩
  | cons b bs ih =>
    obtain ⟨wb, hw⟩ := Option.isSome_iff_exists.mp
      (writeBlock_legal_isSome b (hleg b (List.mem_cons_self b bs)))
    obtain ⟨ws, hm⟩ := ih (fun x hx => hleg x (List.mem_cons_of_mem b hx))
    refine ⟨wb :: ws, ?_⟩
    rw [← List.mapM'_eq_mapM] at hm ⊢
    simp only [List.mapM', hw, hm, Option.bind_eq_bind, Option.some_bind]
    rfl

theorem shaRound_length (st : List Nat) (kw : Nat) :
    (shaRound st kw).length = 8 := by
  simp [shaRound]

theorem foldl_shaRound_length (l : List (Nat × Nat)) :
    ∀ st : List Nat, st.length = 8 →
    (l.foldl (fun st kw => shaRound st (kw.1 + kw.2)) st).length = 8 := by
  induction l with
  | nil => exact fun st h => h
  | cons a l ih => exact fun st _ => ih _ (shaRound_length _ _)

theorem shaProcessChunk_length (h chunk : List Nat) (hh : h.length = 8) :
    (shaProcessChunk h chunk).length = 8 := by
  simp only [shaProcessChunk]
  rw [List.length_zipWith, foldl_shaRound_length _ _ hh, hh]
  rfl

theorem foldl_shaProcessChunk_length (chunks : List (List Nat)) :
    ∀ h : List Nat, h.length = 8 →
    (chunks.foldl shaProcessChunk h).length = 8 := by
  induction chunks with
  | nil => exact fun h hh => hh
  | cons c cs ih => exact fun h hh => ih _ (shaProcessChunk_length _ _ hh)

theorem flatten_map_be32_length (l : List Nat) :
    ((l.map be32Bytes).flatten).length = 4 * l.length := by
  induction l with
  | nil => rfl
  | cons a l ih =>
    simp only [List.map_cons, List.flatten_cons, List.length_append, ih,
      List.length_cons, be32Bytes]
    simp
    omega

theorem sha256_length (msg : List Nat) : (sha256 msg).length = 32 := by
  simp only [sha256]
  rw [flatten_map_be32_length,
    foldl_shaProcessChunk_length _ _ (by rfl)]

theorem computeHash_length (d : List Nat) : (computeHash d).length = 32 := by
  simp only [computeHash, sha256_length]

/-- C2 (amended): for every block sequence in which each block has a
payload length matching its type (fixed scalar size, zero for booleans,
any length below the count-word range for objects, a multiple of the
element size for arrays with a sized sub-tag) and, in addition to the
claim as written, carries sub-tag NONE whenever it is not an array,
encryption succeeds and decrypting the produced file yields exactly the
original sequence: same length, order, keys, types, sub-tags and payload
bytes. -/
theorem C2_decrypt_encrypt (blocks : List SCBlock)
    (hleg : ∀ b ∈ blocks, legalBlock b = true) :
    ∃ f, encrypt blocks = some f ∧ decrypt f = .ok blocks := by
  obtain ⟨bss, hmap⟩ := mapM_writeBlock_legal_isSome blocks hleg
  have hgd : getDecryptedRawData blocks
      = some (bss.flatten ++ List.replicate 32 0) := by
    simp only [getDecryptedRawData, hmap, SIZE_HASH]
  have htake1 : (bss.flatten ++ List.replicate 32 0).take
      ((bss.flatten ++ List.replicate 32 0).length - 32) = bss.flatten := by
    rw [List.length_append, List.length_replicate,
      show bss.flatten.length + 32 - 32 = bss.flatten.length from by omega]
    exact List.take_left _ _
  have henc : encrypt blocks = some (cryptStaticXorpadBytes bss.flatten
      ++ computeHash (cryptStaticXorpadBytes bss.flatten)) := by
    simp only [encrypt, hgd, SIZE_HASH, htake1]
  refine ⟨_, henc, ?_⟩
  have hchl := computeHash_length (cryptStaticXorpadBytes bss.flatten)
  have hplen := length_cryptStaticXorpadBytes bss.flatten
  have htake2 : (cryptStaticXorpadBytes bss.flatten
        ++ computeHash (cryptStaticXorpadBytes bss.flatten)).take
      ((cryptStaticXorpadBytes bss.flatten
        ++ computeHash (cryptStaticXorpadBytes bss.flatten)).length - 32)
      = cryptStaticXorpadBytes bss.flatten := by
    rw [List.length_append, hchl,
      show (cryptStaticXorpadBytes bss.flatten).length + 32 - 32
        = (cryptStaticXorpadBytes bss.flatten).length from by omega]
    exact List.take_left _ _
  simp only [decrypt, SIZE_HASH, htake2, cryptStaticXorpadBytes_involutive]
  exact readBlocks_flatten blocks bss hleg hmap

theorem slice_length (data : List Nat) (off n : Nat)
    (h : off + n ≤ data.length) : (slice data off n).length = n := by
  simp [slice]
  omega

theorem slice_one (data : List Nat) (off : Nat) (h : off < data.length) :
    slice data off 1 = [data.getD off 0] := by
  apply List.ext_getElem
  · simp only [slice, List.length_take, List.length_drop,
      List.length_cons, List.length_nil]
    omega
  · intro i h1 h2
    simp only [slice] at h1 ⊢
    simp only [List.getElem_take, List.getElem_drop]
    have : i = 0 := by
      simp at h1
      omega
    subst this
    simp [List.getD_eq_getElem?_getD, List.getElem?_eq_getElem h]

theorem slice_split (data : List Nat) (off a n : Nat) :
    slice data off (a + n) = slice data off a ++ slice data (off + a) n := by
  unfold slice
  rw [List.take_add]
  congr 1
  rw [List.drop_drop]

theorem mem_slice {x : Nat} {data : List Nat} {off n : Nat}
    (h : x ∈ slice data off n) : x ∈ data :=
  List.mem_of_mem_drop (List.mem_of_mem_take h)

theorem slice_all (data : List Nat) : slice data 0 data.length = data := by
  simp [slice]

set_option maxRecDepth 2000 in
theorem STATIC_XORPAD_lt : ∀ x ∈ STATIC_XORPAD, x < 256 := by decide

theorem cryptStaticXorpadBytes_lt (d : List Nat) (hd : ∀ x ∈ d, x < 256) :
    ∀ x ∈ cryptStaticXorpadBytes d, x < 256 := by
  have hpad : ∀ x ∈ STATIC_XORPAD, x < 256 := STATIC_XORPAD_lt
  intro x hx
  obtain ⟨i, hi, rfl⟩ := List.mem_iff_getElem.mp hx
  have hlen : i < d.length := by
    rw [← length_cryptStaticXorpadBytes d]
    exact hi
  have : (cryptStaticXorpadBytes d).getD i 0 = (cryptStaticXorpadBytes d)[i] := by
    simp [List.getD_eq_getElem?_getD, List.getElem?_eq_getElem hi]
  rw [← this, getD_cryptStaticXorpadBytes d i hlen]
  exact Nat.xor_lt_two_pow (n := 8) (getD_lt_of_all hd i)
    (getD_lt_of_all hpad (i % 127))

theorem writeBlock_readWithKey {data : List Nat} {key off : Nat}
    {b : SCBlock} {off2 : Nat}
    (hb : ∀ x ∈ data, x < 256) (hkey : key < 4294967296)
    (h : readWithKey data key off = .ok (b, off2)) :
    writeBlock b = some (u32ToBytesLE key ++ slice data off (off2 - off)) := by
  simp only [readWithKey] at h
  by_cases h0 : data.length ≤ off
  · rw [if_pos h0] at h
    exact Except.noConfusion h
  rw [if_neg h0] at h
  rcases hov : SCTypeCode.ofVal
      (data.getD off 0 ^^^ (SCXorShift32.ofSeed key).next.1) with _ | bt
  · rw [hov] at h
    exact Except.noConfusion h
  rw [hov] at h
  simp only [] at h
  have hbt' : bt.val ^^^ (SCXorShift32.ofSeed key).next.1
      = data.getD off 0 := by
    rw [val_ofVal hov, Nat.xor_cancel_right]
  by_cases hb3 : bt = .BOOL1 ∨ bt = .BOOL2 ∨ bt = .BOOL3
  · rw [if_pos hb3] at h
    simp only [Except.ok.injEq, Prod.mk.injEq] at h
    obtain ⟨h1, h2⟩ := h
    subst h2
    subst h1
    have hno : ¬bt = SCTypeCode.OBJECT := by
      rcases hb3 with h | h | h <;> subst h <;> simp
    have hna : ¬bt = SCTypeCode.ARRAY := by
      rcases hb3 with h | h | h <;> subst h <;> simp
    simp only [writeBlock]
    rw [if_pos ⟨hkey, by simp⟩, if_neg hno, if_neg hna]
    simp only []
    rw [show off + 1 - off = 1 from by omega, slice_one data off (by omega),
      ← hbt']
    simp [cryptBytes]
  rw [if_neg hb3] at h
  by_cases hobj : bt = .OBJECT
  · rw [if_pos hobj] at h
    by_cases h5 : data.length < off + 5
    · rw [if_pos h5] at h
      exact Except.noConfusion h
    rw [if_neg h5] at h
    by_cases hpay : data.length < off + 5
        + (readU32LE data (off + 1) ^^^ (SCXorShift32.ofSeed key).next.2.next32.1)
    · rw [if_pos hpay] at h
      exact Except.noConfusion h
    rw [if_neg hpay] at h
    simp only [Except.ok.injEq, Prod.mk.injEq] at h
    obtain ⟨h1, h2⟩ := h
    subst h2
    subst h1
    subst hobj
    have hraw256 : ∀ x ∈ (cryptBytes (SCXorShift32.ofSeed key).next.2.next32.2
        (slice data (off + 5)
          (readU32LE data (off + 1)
            ^^^ (SCXorShift32.ofSeed key).next.2.next32.1))).1, x < 256 :=
      cryptBytes_fst_lt _ _ (fun x hx => hb x (mem_slice hx))
    have hrawlen : (cryptBytes (SCXorShift32.ofSeed key).next.2.next32.2
        (slice data (off + 5)
          (readU32LE data (off + 1)
            ^^^ (SCXorShift32.ofSeed key).next.2.next32.1))).1.length
        = readU32LE data (off + 1)
            ^^^ (SCXorShift32.ofSeed key).next.2.next32.1 := by
      rw [cryptBytes_fst_length, slice_length data _ _ (by omega)]
    simp only [writeBlock]
    rw [if_pos ⟨hkey, hraw256⟩]
    simp only [reduceIte]
    rw [hrawlen, Nat.xor_cancel_right, if_pos (readU32LE_lt hb (off + 1))]
    simp only []
    rw [cryptBytes_involutive,
      show off + 5 + (readU32LE data (off + 1)
          ^^^ (SCXorShift32.ofSeed key).next.2.next32.1) - off
        = 1 + (4 + (readU32LE data (off + 1)
          ^^^ (SCXorShift32.ofSeed key).next.2.next32.1)) from by omega,
      slice_split data off 1 _, slice_one data off (by omega), ← hbt',
      slice_split data (off + 1) 4 _,
      show off + 1 + 4 = off + 5 from by omega,
      ← u32ToBytesLE_readU32LE data (off + 1) (by omega) hb]
    simp [List.append_assoc]
  rw [if_neg hobj] at h
  by_cases harr : bt = .ARRAY
  · rw [if_pos harr] at h
    by_cases h5 : data.length < off + 5
    · rw [if_pos h5] at h
      exact Except.noConfusion h
    rw [if_neg h5] at h
    by_cases h6 : data.length ≤ off + 5
    · rw [if_pos h6] at h
      exact Except.noConfusion h
    rw [if_neg h6] at h
    rcases hst : SCTypeCode.ofVal (data.getD (off + 5) 0
        ^^^ (SCXorShift32.ofSeed key).next.2.next32.2.next.1) with _ | st
    · rw [hst] at h
      exact Except.noConfusion h
    rw [hst] at h
    simp only [] at h
    rcases hts : st.getTypeSize with _ | sz
    · rw [hts] at h
      exact Except.noConfusion h
    rw [hts] at h
    simp only [] at h
    by_cases hpay : data.length < off + 6
        + (readU32LE data (off + 1)
            ^^^ (SCXorShift32.ofSeed key).next.2.next32.1) * sz
    · rw [if_pos hpay] at h
      exact Except.noConfusion h
    rw [if_neg hpay] at h
    simp only [Except.ok.injEq, Prod.mk.injEq] at h
    obtain ⟨h1, h2⟩ := h
    subst h2
    subst h1
    have hst' : st.val ^^^ (SCXorShift32.ofSeed key).next.2.next32.2.next.1
        = data.getD (off + 5) 0 := by
      rw [val_ofVal hst, Nat.xor_cancel_right]
    have hraw256 : ∀ x ∈ (cryptBytes
        (SCXorShift32.ofSeed key).next.2.next32.2.next.2
        (slice data (off + 6)
          ((readU32LE data (off + 1)
            ^^^ (SCXorShift32.ofSeed key).next.2.next32.1) * sz))).1, x < 256 :=
      cryptBytes_fst_lt _ _ (fun x hx => hb x (mem_slice hx))
    have hrawlen : (cryptBytes
        (SCXorShift32.ofSeed key).next.2.next32.2.next.2
        (slice data (off + 6)
          ((readU32LE data (off + 1)
            ^^^ (SCXorShift32.ofSeed key).next.2.next32.1) * sz))).1.length
        = (readU32LE data (off + 1)
            ^^^ (SCXorShift32.ofSeed key).next.2.next32.1) * sz := by
      rw [cryptBytes_fst_length, slice_length data _ _ (by omega)]
    simp only [writeBlock]
    rw [if_pos ⟨hkey, hraw256⟩]
    simp only [reduceIte, reduceCtorEq, hts]
    rw [hrawlen, Nat.mul_div_cancel _ (getTypeSize_pos hts),
      Nat.xor_cancel_right, if_pos (readU32LE_lt hb (off + 1))]
    simp only []
    rw [cryptBytes_involutive,
      show off + 6 + (readU32LE data (off + 1)
          ^^^ (SCXorShift32.ofSeed key).next.2.next32.1) * sz - off
        = 1 + (4 + (1 + (readU32LE data (off + 1)
          ^^^ (SCXorShift32.ofSeed key).next.2.next32.1) * sz)) from by omega,
      slice_split data off 1 _, slice_one data off (by omega), ← hbt',
      slice_split data (off + 1) 4 _,
      show off + 1 + 4 = off + 5 from by omega,
      slice_split data (off + 5) 1 _, slice_one data (off + 5) (by omega),
      ← hst', show off + 5 + 1 = off + 6 from by omega,
      ← u32ToBytesLE_readU32LE data (off + 1) (by omega) hb]
    simp [List.append_assoc, harr]
  rw [if_neg harr] at h
  rcases hts : bt.getTypeSize with _ | sz
  · rw [hts] at h
    exact Except.noConfusion h
  rw [hts] at h
  simp only [] at h
  by_cases hval : data.length < off + 1 + sz
  · rw [if_pos hval] at h
    exact Except.noConfusion h
  rw [if_neg hval] at h
  simp only [Except.ok.injEq, Prod.mk.injEq] at h
  obtain ⟨h1, h2⟩ := h
  subst h2
  subst h1
  have hraw256 : ∀ x ∈ (cryptBytes (SCXorShift32.ofSeed key).next.2
      (slice data (off + 1) sz)).1, x < 256 :=
    cryptBytes_fst_lt _ _ (fun x hx => hb x (mem_slice hx))
  simp only [writeBlock]
  rw [if_pos ⟨hkey, hraw256⟩, if_neg hobj, if_neg harr]
  simp only []
  rw [cryptBytes_involutive,
    show off + 1 + sz - off = 1 + sz from by omega,
    slice_split data off 1 sz, slice_one data off (by omega), ← hbt']
  simp [List.append_assoc]

theorem writeBlock_readFromOffset {data : List Nat} {off : Nat}
    {b : SCBlock} {off2 : Nat}
    (hb : ∀ x ∈ data, x < 256)
    (h : readFromOffset data off = .ok (b, off2)) :
    writeBlock b = some (slice data off (off2 - off)) := by
  unfold readFromOffset at h
  by_cases h4 : data.length < off + 4
  · rw [if_pos h4] at h
    exact Except.noConfusion h
  rw [if_neg h4] at h
  have hbnd := readWithKey_ok_bounds h
  have hw := writeBlock_readWithKey hb (readU32LE_lt hb off) h
  rw [hw, u32ToBytesLE_readU32LE data off (by omega) hb]
  congr 1
  rw [show off2 - off = 4 + (off2 - (off + 4)) from by omega,
    slice_split data off 4 _]

theorem readBlocksAux_writes {data : List Nat} (hb : ∀ x ∈ data, x < 256) :
    ∀ (fuel offset : Nat) (blocks : List SCBlock),
    data.length - offset ≤ fuel →
    readBlocksAux data offset fuel = .ok blocks →
    ∃ bss, blocks.mapM writeBlock = some bss
      ∧ bss.flatten = slice data offset (data.length - offset) := by
  intro fuel
  induction fuel with
  | zero =>
    intro offset blocks hf h
    unfold readBlocksAux at h
    rw [if_neg (by omega)] at h
    simp only [Except.ok.injEq] at h
    subst h
    refine ⟨[], rfl, ?_⟩
    rw [show data.length - offset = 0 from by omega]
    simp [slice]
  | succ fuel ih =>
    intro offset blocks hf h
    unfold readBlocksAux at h
    by_cases hlt : offset < data.length
    · rw [if_pos hlt] at h
      rcases hro : readFromOffset data offset with e | ⟨b, off'⟩
      · rw [hro] at h
        exact Except.noConfusion h
      rw [hro] at h
      simp only [] at h
      rcases hrb : readBlocksAux data off' fuel with e | rest
      · rw [hrb] at h
        exact Except.noConfusion h
      rw [hrb] at h
      simp only [Except.ok.injEq] at h
      subst h
      have hbnd := readFromOffset_ok_bounds hro
      obtain ⟨ws, hmap, hflat⟩ := ih off' rest (by omega) hrb
      have hwb := writeBlock_readFromOffset hb hro
      refine ⟨slice data offset (off' - offset) :: ws, ?_, ?_⟩
      · rw [← List.mapM'_eq_mapM] at hmap ⊢
        simp only [List.mapM', hwb, hmap, Option.bind_eq_bind,
          Option.some_bind]
        rfl
      · simp only [List.flatten_cons, hflat]
        have hs := slice_split data offset (off' - offset)
          (data.length - off')
        rw [show offset + (off' - offset) = off' from by omega] at hs
        rw [show off' - offset + (data.length - off')
          = data.length - offset from by omega] at hs
        exact hs.symm
    · rw [if_neg hlt] at h
      simp only [Except.ok.injEq] at h
      subst h
      refine ⟨[], rfl, ?_⟩
      rw [show data.length - offset = 0 from by omega]
      simp [slice]

/-- C1: a byte-valued file that passes the integrity check and whose
payload decodes into a block sequence is reproduced byte for byte by
re-encoding that sequence without mutating any block: `encrypt` succeeds
and returns exactly the original file. -/
theorem C1_encrypt_decrypt (F : List Nat) (blocks : List SCBlock)
    (hbytes : ∀ x ∈ F, x < 256)
    (hvalid : getIsHashValid F = true)
    (hdec : decrypt F = .ok blocks) :
    encrypt blocks = some F := by
  simp only [getIsHashValid, SIZE_HASH] at hvalid
  by_cases hlen : F.length < 32
  · rw [if_pos hlen] at hvalid
    exact absurd hvalid (by simp)
  rw [if_neg hlen, beq_iff_eq] at hvalid
  simp only [decrypt, readBlocks, SIZE_HASH] at hdec
  set payload := F.take (F.length - 32) with hpayload
  set flat := cryptStaticXorpadBytes payload with hflatdef
  have hfb : ∀ x ∈ flat, x < 256 := by
    rw [hflatdef]
    exact cryptStaticXorpadBytes_lt _
      (fun x hx => hbytes x (List.mem_of_mem_take hx))
  obtain ⟨bss, hmap, hflat⟩ := readBlocksAux_writes hfb flat.length 0 blocks
    (by omega) hdec
  rw [Nat.sub_zero, slice_all] at hflat
  have hgd : getDecryptedRawData blocks
      = some (bss.flatten ++ List.replicate 32 0) := by
    simp only [getDecryptedRawData, hmap, SIZE_HASH]
  have htake1 : (bss.flatten ++ List.replicate 32 0).take
      ((bss.flatten ++ List.replicate 32 0).length - 32) = bss.flatten := by
    rw [List.length_append, List.length_replicate,
      show bss.flatten.length + 32 - 32 = bss.flatten.length from by omega]
    exact List.take_left _ _
  simp only [encrypt, hgd, SIZE_HASH, htake1]
  rw [hflat, hflatdef, cryptStaticXorpadBytes_involutive, hvalid, hpayload]
  rw [List.take_append_drop]

set_option maxRecDepth 10000 in
/-- C1 witness: the file consisting solely of the hash of the empty
payload is valid, decrypts to the empty block sequence, and re-encoding
reproduces it. -/
theorem C1_encrypt_decrypt_witness :
    (∀ x ∈ computeHash [], x < 256) ∧ getIsHashValid (computeHash []) = true
      ∧ decrypt (computeHash []) = .ok []
      ∧ encrypt [] = some (computeHash []) :=
  ⟨by decide, by decide, by decide,
    C1_encrypt_decrypt (computeHash []) [] (by decide) (by decide)
      (by decide)⟩

/-- C2 witness: a singleton boolean block sequence is legal and survives
the encode-then-decode round trip. -/
theorem C2_decrypt_encrypt_witness :
    (∀ b ∈ [SCBlock.mk 1 .BOOL1 [] .NONE], legalBlock b = true) ∧
    ∃ f, encrypt [SCBlock.mk 1 .BOOL1 [] .NONE] = some f
      ∧ decrypt f = .ok [SCBlock.mk 1 .BOOL1 [] .NONE] :=
  ⟨by decide, C2_decrypt_encrypt [SCBlock.mk 1 .BOOL1 [] .NONE] (by decide)⟩

set_option maxRecDepth 10000 in
/-- C2 counterexample to the claim as written: the block with key 0,
type OBJECT, empty payload and sub-tag BYTE meets every payload-shape
condition the claim lists for legality, yet decrypting its encryption
returns the block with sub-tag NONE, which is structurally different
from the input. -/
theorem C2_subtype_counterexample :
    legalBlockClaim ⟨0, .OBJECT, [], .BYTE⟩ = true ∧
    (encrypt [⟨0, .OBJECT, [], .BYTE⟩]).map decrypt
      = some (.ok [⟨0, .OBJECT, [], .NONE⟩]) ∧
    ([⟨0, .OBJECT, [], .NONE⟩] : List SCBlock)
      ≠ [⟨0, .OBJECT, [], .BYTE⟩] := by
  refine ⟨by decide, ?_, by decide⟩
  decide

end Plaza
